import Mathlib

/-!
Verification of the t8code adapt engine (`src/t8_forest/t8_forest_adapt.cxx`).

The element-scheme operations (`t8_eclass_scheme_c`: `t8_element_child_id`,
`t8_element_parent`, `t8_element_children`, `t8_element_num_children`,
`t8_element_is_family`, `t8_element_compare`) are declared but not implemented
in the sources at hand, so they are modelled from the specification:
an element of a class with `K` children per refinement is identified by its
ancestry path, the sequence of child ids leading from the root element to it
(spec section 4.1: the child index chain determines the element, children are
numbered `0 .. K-1` in Morton/Bey order, `compare` is the SFC order in which
an ancestor precedes its descendants and same-level elements are ordered by
their child-id paths).

All real element classes have at least two children per refinement
(2 for lines, 4 for quads/triangles, 8 for hexes/tets), so the number of
children is written `k + 2` throughout.

The adapt engine itself (`t8_forest_adapt`, `t8_forest_adapt_refine_recursive`,
`t8_forest_adapt_coarsen_recursive`) is translated from the source.  The
imperative loops become explicit state passing; replace-callback invocations
and adapt-predicate invocations are recorded in traces so that theorems can
speak about them.
-/

set_option maxHeartbeats 1000000
set_option maxRecDepth 8000

namespace T8

/-- Modelled from the spec: an element is identified by its ancestry path,
the list of child ids from the root element down to it (section 4.1).
The root element is the empty path. -/
abbrev Elem (k : ℕ) := List (Fin (k + 2))

/-- Modelled from the spec: `t8_element_num_children`.  Every element of the
class refines into `k + 2` children. -/
def t8_element_num_children (k : ℕ) (_ : Elem k) : ℕ := k + 2

/-- Modelled from the spec: `t8_element_level` is the length of the ancestry
path. -/
def t8_element_level {k : ℕ} (e : Elem k) : ℕ := e.length

/-- Modelled from the spec: `t8_element_child_id` is the last child id on the
ancestry path; the root element has child id `0`. -/
def t8_element_child_id {k : ℕ} (e : Elem k) : ℕ :=
  (e.getLast?.map Fin.val).getD 0

/-- Modelled from the spec: `t8_element_parent` drops the last step of the
ancestry path.  (On the root element it is a contract violation in the code;
the model returns the root itself there.) -/
def t8_element_parent {k : ℕ} (e : Elem k) : Elem k := e.dropLast

/-- Modelled from the spec: `t8_element_child` appends the child id to the
ancestry path. -/
def t8_element_child {k : ℕ} (e : Elem k) (i : Fin (k + 2)) : Elem k := e ++ [i]

/-- Modelled from the spec: `t8_element_children` lists the children in
canonical (Morton/Bey) order `0 .. k+1`. -/
def t8_element_children {k : ℕ} (e : Elem k) : List (Elem k) :=
  (List.finRange (k + 2)).map (fun i => e ++ [i])

/-- Modelled from the spec: `t8_element_is_family` holds of a window of
`k + 2` elements that are the children `0 .. k+1` of a common parent. -/
def t8_element_is_family {k : ℕ} (fam : List (Elem k)) : Bool :=
  match fam.head? with
  | none => false
  | some e => !e.isEmpty && decide (fam = t8_element_children e.dropLast)

/-- Modelled from the spec: the strict SFC (space-filling-curve) order that
`t8_element_compare` computes: an ancestor precedes its proper descendants,
and otherwise elements are ordered by the first differing child id. -/
def sfcLt {k : ℕ} : Elem k → Elem k → Bool
  | [], [] => false
  | [], _ :: _ => true
  | _ :: _, [] => false
  | a :: as, b :: bs => a < b || (a == b && sfcLt as bs)

/-- Modelled from the spec: `t8_element_compare`, the three-way SFC
comparison. -/
def t8_element_compare {k : ℕ} (a b : Elem k) : Int :=
  if sfcLt a b then -1 else if sfcLt b a then 1 else 0

theorem sfcLt_irrefl {k : ℕ} : ∀ a : Elem k, sfcLt a a = false := by
  intro a
  induction a with
  | nil => rfl
  | cons x xs ih => simp [sfcLt, ih]

theorem sfcLt_trans {k : ℕ} :
    ∀ {a b c : Elem k}, sfcLt a b = true → sfcLt b c = true → sfcLt a c = true := by
  intro a
  induction a with
  | nil =>
    intro b c hab hbc
    cases b with
    | nil => simp [sfcLt] at hab
    | cons y ys =>
      cases c with
      | nil => simp [sfcLt] at hbc
      | cons z zs => simp [sfcLt]
  | cons x xs ih =>
    intro b c hab hbc
    cases b with
    | nil => simp [sfcLt] at hab
    | cons y ys =>
      cases c with
      | nil => simp [sfcLt] at hbc
      | cons z zs =>
        simp [sfcLt] at hab hbc ⊢
        rcases hab with hxy | ⟨hxy, hab⟩
        · rcases hbc with hyz | ⟨hyz, _⟩
          · exact Or.inl (lt_trans hxy hyz)
          · exact Or.inl (hyz ▸ hxy)
        · rcases hbc with hyz | ⟨hyz, hbc⟩
          · exact Or.inl (hxy ▸ hyz)
          · exact Or.inr ⟨hxy.trans hyz, ih hab hbc⟩

theorem sfcLt_ne {k : ℕ} {a b : Elem k} (h : sfcLt a b = true) : a ≠ b := by
  intro hab
  subst hab
  simp [sfcLt_irrefl] at h

/-- Two elements are SFC-adjacent regions: `x` is the last-child chain below
some child `c` of a common ancestor and `y` is the first-child chain below the
next sibling `c+1`.  Consecutive leaves of any tiling of the root are related
this way, and the relation is preserved by all adapt operations. -/
def Adj {k : ℕ} (x y : Elem k) : Prop :=
  ∃ (q : Elem k) (c c' : Fin (k + 2)) (s t : ℕ),
    c.val + 1 = c'.val ∧
    x = q ++ c :: List.replicate s (Fin.last (k + 1)) ∧
    y = q ++ c' :: List.replicate t 0

theorem Adj_ext {k : ℕ} {x y : Elem k} (s' t' : ℕ) (h : Adj x y) :
    Adj (x ++ List.replicate s' (Fin.last (k + 1))) (y ++ List.replicate t' 0) := by
  obtain ⟨q, c, c', s, t, hc, hx, hy⟩ := h
  refine ⟨q, c, c', s + s', t + t', hc, ?_, ?_⟩
  · rw [hx, List.append_assoc, List.cons_append, List.replicate_add]
  · rw [hy, List.append_assoc, List.cons_append, List.replicate_add]

theorem Adj_sib {k : ℕ} (x : Elem k) (c c' : Fin (k + 2)) (hc : c.val + 1 = c'.val) :
    Adj (x ++ [c]) (x ++ [c']) :=
  ⟨x, c, c', 0, 0, hc, by simp, by simp⟩

theorem sfcLt_append_same {k : ℕ} (q u v : Elem k) :
    sfcLt (q ++ u) (q ++ v) = sfcLt u v := by
  induction q with
  | nil => simp
  | cons x xs ih => simp [sfcLt, ih]

theorem Adj_sfcLt {k : ℕ} {x y : Elem k} (h : Adj x y) : sfcLt x y = true := by
  obtain ⟨q, c, c', s, t, hc, hx, hy⟩ := h
  subst hx hy
  rw [sfcLt_append_same]
  have : c < c' := by
    apply Fin.lt_def.mpr
    omega
  simp [sfcLt, this]

theorem child_id_concat {k : ℕ} (q : Elem k) (c : Fin (k + 2)) :
    t8_element_child_id (q ++ [c]) = c.val := by
  simp [t8_element_child_id]

theorem child_id_chain {k : ℕ} (q : Elem k) (c a : Fin (k + 2)) (t : ℕ) :
    t8_element_child_id (q ++ c :: List.replicate (t + 1) a) = a.val := by
  have : q ++ c :: List.replicate (t + 1) a = (q ++ c :: List.replicate t a) ++ [a] := by
    rw [List.replicate_succ']
    simp
  rw [this, child_id_concat]

/-- From adjacency and consecutive child ids, the two elements are consecutive
siblings. -/
theorem Adj_consecutive_sibs {k : ℕ} {x y : Elem k} {j : ℕ}
    (h : Adj x y) (hj : j + 1 ≤ k + 1)
    (hx : t8_element_child_id x = j) (hy : t8_element_child_id y = j + 1) :
    ∃ (q : Elem k) (c c' : Fin (k + 2)),
      c.val = j ∧ c'.val = j + 1 ∧ x = q ++ [c] ∧ y = q ++ [c'] := by
  obtain ⟨q, c, c', s, t, hc, hxe, hye⟩ := h
  have ht : t = 0 := by
    by_contra hne
    obtain ⟨t', rfl⟩ : ∃ t', t = t' + 1 := ⟨t - 1, by omega⟩
    rw [hye, child_id_chain] at hy
    simp only [Fin.val_zero] at hy
    omega
  have hs : s = 0 := by
    by_contra hne
    obtain ⟨s', rfl⟩ : ∃ s', s = s' + 1 := ⟨s - 1, by omega⟩
    rw [hxe, child_id_chain] at hx
    simp only [Fin.val_last] at hx
    omega
  subst ht hs
  simp only [List.replicate_zero] at hxe hye
  rw [hxe, child_id_concat] at hx
  rw [hye, child_id_concat] at hy
  exact ⟨q, c, c', hx, hy, hxe, hye⟩

/-- Adjacency with the first child of `p` on the right factors through `p`. -/
theorem Adj_parent_right {k : ℕ} {a p : Elem k}
    (h : Adj a (p ++ [(0 : Fin (k + 2))])) : Adj a p := by
  obtain ⟨q, c, c', s, t, hc, hxe, hye⟩ := h
  have ht : t ≠ 0 := by
    intro ht0
    subst ht0
    simp only [List.replicate_zero] at hye
    have h0 := congrArg List.getLast? hye
    simp [List.getLast?_concat] at h0
    have : c'.val = 0 := by
      have := congrArg Fin.val h0
      simpa using this.symm
    omega
  obtain ⟨t', rfl⟩ : ∃ t', t = t' + 1 := ⟨t - 1, by omega⟩
  have hye' : p ++ [(0 : Fin (k + 2))] = (q ++ c' :: List.replicate t' 0) ++ [0] := by
    rw [hye, List.replicate_succ']
    simp
  have hp : p = q ++ c' :: List.replicate t' 0 := by
    have := List.append_cancel_right hye'
    exact this
  exact ⟨q, c, c', s, t', hc, hxe, hp⟩

/-- Adjacency with the last child of `p` on the left factors through `p`. -/
theorem Adj_parent_left {k : ℕ} {p b : Elem k}
    (h : Adj (p ++ [Fin.last (k + 1)]) b) : Adj p b := by
  obtain ⟨q, c, c', s, t, hc, hxe, hye⟩ := h
  have hs : s ≠ 0 := by
    intro hs0
    subst hs0
    simp only [List.replicate_zero] at hxe
    have := congrArg List.getLast? hxe
    simp [List.getLast?_concat] at this
    have hcv : c.val = k + 1 := by
      rw [← this]
      simp [Fin.last]
    omega
  obtain ⟨s', rfl⟩ : ∃ s', s = s' + 1 := ⟨s - 1, by omega⟩
  have hxe' : p ++ [Fin.last (k + 1)] = (q ++ c :: List.replicate s' (Fin.last (k + 1))) ++ [Fin.last (k + 1)] := by
    rw [hxe, List.replicate_succ']
    simp
  have hp : p = q ++ c :: List.replicate s' (Fin.last (k + 1)) := by
    exact List.append_cancel_right hxe'
  exact ⟨q, c, c', s', t, hc, hp, hye⟩

/-- The child-id check of the window scan: element at offset `i` must have
child id `j + i` (the scan starts at `j = 0`).  This is the loop over `zz` at
lines 213-221 of `t8_forest_adapt.cxx` and over `i` at lines 64-70. -/
def idsFrom {k : ℕ} : ℕ → List (Elem k) → Bool
  | _, [] => true
  | j, e :: es => (t8_element_child_id e == j) && idsFrom (j + 1) es

theorem idsFrom_iff {k : ℕ} :
    ∀ (w : List (Elem k)) (j : ℕ),
      idsFrom j w = true ↔
        ∀ i (hi : i < w.length), t8_element_child_id (w.get ⟨i, hi⟩) = j + i := by
  intro w
  induction w with
  | nil => intro j; simp [idsFrom]
  | cons e es ih =>
    intro j
    simp only [idsFrom, Bool.and_eq_true, beq_iff_eq, ih (j + 1)]
    constructor
    · rintro ⟨h0, hrest⟩ i hi
      cases i with
      | zero => simpa using h0
      | succ i' =>
        have hi' : i' < es.length := by simpa using hi
        have := hrest i' hi'
        simpa [Nat.add_assoc, Nat.add_comm, Nat.add_left_comm] using this
    · intro h
      refine ⟨by simpa using h 0 (by simp), ?_⟩
      intro i hi
      have := h (i + 1) (by simpa using Nat.succ_lt_succ hi)
      simpa [Nat.add_assoc, Nat.add_comm, Nat.add_left_comm] using this

theorem children_length {k : ℕ} (p : Elem k) :
    (t8_element_children p).length = k + 2 := by
  simp [t8_element_children]

theorem children_get {k : ℕ} (p : Elem k) (i : ℕ) (hi : i < (t8_element_children p).length) :
    (t8_element_children p).get ⟨i, hi⟩ = p ++ [⟨i, by simpa [children_length] using hi⟩] := by
  simp [t8_element_children, List.get_map]

/-- In a chain of adjacent elements starting from `p ++ [c]`, successive
elements whose child ids continue `c.val + 1, c.val + 2, …` are the successive
siblings of `p ++ [c]`. -/
theorem chain_sibs {k : ℕ} :
    ∀ (w : List (Elem k)) (p : Elem k) (c : Fin (k + 2)),
      List.Chain' Adj ((p ++ [c]) :: w) →
      (∀ i (hi : i < w.length), t8_element_child_id (w.get ⟨i, hi⟩) = c.val + 1 + i) →
      c.val + w.length ≤ k + 1 →
      ∀ i (hi : i < w.length),
        ∃ d : Fin (k + 2), d.val = c.val + 1 + i ∧ w.get ⟨i, hi⟩ = p ++ [d] := by
  intro w
  induction w with
  | nil =>
    intro p c _ _ _ i hi
    simp at hi
  | cons y w' ih =>
    intro p c hch hids hbound i hi
    have hAdj : Adj (p ++ [c]) y := List.chain'_cons.mp hch |>.1
    have hch' : List.Chain' Adj (y :: w') := List.chain'_cons.mp hch |>.2
    have hy0 : t8_element_child_id y = c.val + 1 := by
      have := hids 0 (by simp)
      simpa using this
    have hlen : (y :: w').length = w'.length + 1 := by simp
    have hj : c.val + 1 ≤ k + 1 := by omega
    obtain ⟨q, c0, c0', hc0, hc0', hxq, hyq⟩ :=
      Adj_consecutive_sibs hAdj hj (child_id_concat p c) hy0
    obtain ⟨hqp, hc0c⟩ := List.append_inj' hxq.symm (by simp)
    have hyp : y = p ++ [c0'] := by rw [hyq, hqp]
    cases i with
    | zero =>
      refine ⟨c0', by omega, ?_⟩
      simpa using hyp
    | succ i' =>
      have hi' : i' < w'.length := by simpa using hi
      have hch'' : List.Chain' Adj ((p ++ [c0']) :: w') := hyp ▸ hch'
      have hids' : ∀ i (hil : i < w'.length),
          t8_element_child_id (w'.get ⟨i, hil⟩) = c0'.val + 1 + i := by
        intro i hil
        have h2 := hids (i + 1) (by simpa using Nat.succ_lt_succ hil)
        simp only [List.get] at h2
        rw [h2]
        omega
      have hbound' : c0'.val + w'.length ≤ k + 1 := by omega
      obtain ⟨d, hd, hw⟩ := ih p c0' hch'' hids' hbound' i' hi'
      refine ⟨d, by omega, ?_⟩
      simp only [List.get]
      exact hw

/-- A window of `k + 2` consecutive elements of an `Adj`-chain whose child ids
are `0, 1, …, k+1` is a family: the children of a common parent.  This is the
fact asserted by `T8_ASSERT (is_family || ...)` after the child-id scans. -/
theorem chain_ids_family {k : ℕ} (w : List (Elem k))
    (hch : List.Chain' Adj w) (hlen : w.length = k + 2)
    (hids : ∀ i (hi : i < w.length), t8_element_child_id (w.get ⟨i, hi⟩) = i) :
    ∃ p : Elem k, w = t8_element_children p := by
  obtain ⟨e, w', rfl⟩ : ∃ e w', w = e :: w' := by
    cases w with
    | nil => simp at hlen
    | cons e w' => exact ⟨e, w', rfl⟩
  have hw'len : w'.length = k + 1 := by simpa using hlen
  obtain ⟨y, w'', rfl⟩ : ∃ y w'', w' = y :: w'' := by
    cases w' with
    | nil => simp at hw'len
    | cons y w'' => exact ⟨y, w'', rfl⟩
  have he0 : t8_element_child_id e = 0 := by
    have := hids 0 (by simp)
    simpa using this
  have hene : e ≠ [] := by
    intro he
    subst he
    have hAdj : Adj [] y := List.chain'_cons.mp hch |>.1
    obtain ⟨q, c, c', s, t, _, hxe, _⟩ := hAdj
    have := congrArg List.length hxe
    simp at this
    omega
  obtain ⟨p, c, rfl⟩ : ∃ p c, e = p ++ [c] := by
    refine ⟨e.dropLast, e.getLast hene, ?_⟩
    exact (List.dropLast_append_getLast hene).symm
  have hc0 : c.val = 0 := by
    rw [child_id_concat] at he0
    exact he0
  have hsibs := chain_sibs (y :: w'') p c hch
    (by
      intro i hi
      have h2 := hids (i + 1) (by simpa using Nat.succ_lt_succ hi)
      simp only [List.get] at h2 ⊢
      rw [h2]
      omega)
    (by
      have : (y :: w'').length = k + 1 := hw'len
      omega)
  refine ⟨p, ?_⟩
  apply List.ext_get
  · rw [children_length]
    exact hlen
  intro i hi1 hi2
  cases i with
  | zero =>
    have hcv : c = (⟨0, by omega⟩ : Fin (k + 2)) := Fin.ext (by simpa using hc0)
    rw [children_get]
    simp only [List.get]
    rw [hcv]
  | succ i' =>
    have hi' : i' < (y :: w'').length := by simpa using hi1
    obtain ⟨d, hd, hw⟩ := hsibs i' hi'
    have hdv : d = (⟨i' + 1, by simpa [children_length] using hi2⟩ : Fin (k + 2)) :=
      Fin.ext (by simp [hd]; omega)
    rw [children_get]
    simp only [List.get]
    rw [hw, hdv]

theorem children_head {k : ℕ} (p : Elem k) :
    (t8_element_children p).head? = some (p ++ [(0 : Fin (k + 2))]) := by
  rw [t8_element_children, List.finRange_succ]
  simp

/-- The family of children of `p` passes `t8_element_is_family`. -/
theorem isFamily_children {k : ℕ} (p : Elem k) :
    t8_element_is_family (t8_element_children p) = true := by
  rw [t8_element_is_family, children_head]
  simp

/-- `t8_element_is_family` holds exactly of complete child tuples. -/
theorem isFamily_iff {k : ℕ} (w : List (Elem k)) :
    t8_element_is_family w = true ↔ ∃ p, w = t8_element_children p := by
  constructor
  · intro h
    rw [t8_element_is_family] at h
    cases hh : w.head? with
    | none => rw [hh] at h; simp at h
    | some e =>
      rw [hh] at h
      simp only [Bool.and_eq_true, decide_eq_true_eq] at h
      exact ⟨e.dropLast, h.2⟩
  · rintro ⟨p, rfl⟩
    exact isFamily_children p

theorem mem_children_length {k : ℕ} {e c : Elem k}
    (h : c ∈ t8_element_children e) : c.length = e.length + 1 := by
  rw [t8_element_children] at h
  obtain ⟨i, _, rfl⟩ := List.mem_map.mp h
  simp

/-!
The adapt engine.  From here on, every definition is translated from
`src/t8_forest/t8_forest_adapt.cxx`; input/output element buffers become
lists, and imperative loops become structural or well-founded recursion.

The predicate `pred n w` models `forest->set_adapt_fn (forest, ltreeid, ts,
num_elements, elements)`: `n` is `num_elements` and `w` the window of
elements handed over.  The `repl` trace records the arguments
`(elements_from-window, new-elements)` of every `forest->set_replace_fn`
invocation (the calls happen exactly in this order when a replace callback is
set; the callback does not influence the produced elements).  The `calls`
trace records `(num_elements, elements)` of every predicate invocation.

`L` is the per-class maximum refinement level `T8_*_MAXLEVEL`.  The code
calls `t8_element_children` on a popped refinement candidate whenever the
predicate returns positive; refining past the maximum level is a contract
violation (an assertion in the element implementation), so the model guards
the recursive expansion with `e.length < L`, which agrees with the code for
every predicate satisfying the documented contract (it must return `≤ 0` at
the maximum level).
-/

/-- Result accumulator of `t8_forest_adapt_refine_recursive`: the elements
committed to the tree array, the replace-callback trace, and the
adapt-predicate call trace. -/
structure RefineRes (k : ℕ) where
  outs : List (Elem k)
  repl : List (List (Elem k) × List (Elem k))
  calls : List (ℕ × List (Elem k))
deriving DecidableEq

/-- Structural (fuel-indexed) form of the recursive refinement loop; the
fuel is the remaining level budget `L - e.length`, which bounds the
recursion depth. -/
def refineRecAux {k : ℕ} (pred : ℕ → List (Elem k) → Int) (L : ℕ) :
    ℕ → Elem k → RefineRes k
  | 0, e => { outs := [e], repl := [], calls := [(1, [e])] }
  | fuel + 1, e =>
    if 0 < pred 1 [e] ∧ e.length < L then
      { outs := (List.finRange (k + 2)).flatMap
          (fun i => (refineRecAux pred L fuel (e ++ [i])).outs),
        repl := ([e], t8_element_children e) :: (List.finRange (k + 2)).flatMap
          (fun i => (refineRecAux pred L fuel (e ++ [i])).repl),
        calls := (1, [e]) :: (List.finRange (k + 2)).flatMap
          (fun i => (refineRecAux pred L fuel (e ++ [i])).calls) }
    else
      { outs := [e], repl := [], calls := [(1, [e])] }

/-- Translation of `t8_forest_adapt_refine_recursive` (lines 101-147), in
recursive form: the code keeps a LIFO list and prepends the children in
reverse order, so the popped elements are visited in depth-first order with
child `0` first — exactly the recursion below (see the unfolding equation
`refine_recursive_eq`).  A popped element is fed to the predicate as a
singleton; a positive answer expands it into its children (after reporting
them to the replace callback), otherwise it is committed. -/
def t8_forest_adapt_refine_recursive {k : ℕ} (pred : ℕ → List (Elem k) → Int)
    (L : ℕ) (e : Elem k) : RefineRes k :=
  refineRecAux pred L (L - e.length) e

theorem refineRecAux_irrel {k : ℕ} (pred : ℕ → List (Elem k) → Int) (L : ℕ) :
    ∀ (f₁ : ℕ), ∀ (f₂ : ℕ) (e : Elem k), L - e.length ≤ f₁ → L - e.length ≤ f₂ →
      refineRecAux pred L f₁ e = refineRecAux pred L f₂ e := by
  intro f₁
  induction f₁ with
  | zero =>
    intro f₂ e h1 h2
    cases f₂ with
    | zero => rfl
    | succ f₂' =>
      rw [refineRecAux, refineRecAux]
      rw [if_neg]
      rintro ⟨-, hlen⟩
      omega
  | succ f₁' ih =>
    intro f₂ e h1 h2
    cases f₂ with
    | zero =>
      rw [refineRecAux, refineRecAux]
      rw [if_neg]
      rintro ⟨-, hlen⟩
      omega
    | succ f₂' =>
      rw [refineRecAux, refineRecAux]
      by_cases hc : 0 < pred 1 [e] ∧ e.length < L
      · rw [if_pos hc, if_pos hc]
        have harg : ∀ i : Fin (k + 2),
            refineRecAux pred L f₁' (e ++ [i]) = refineRecAux pred L f₂' (e ++ [i]) := by
          intro i
          apply ih
          · simp only [List.length_append, List.length_cons, List.length_nil]
            omega
          · simp only [List.length_append, List.length_cons, List.length_nil]
            omega
        simp only [harg]
      · rw [if_neg hc, if_neg hc]

/-- The defining equation of `t8_forest_adapt_refine_recursive`. -/
theorem refine_recursive_eq {k : ℕ} (pred : ℕ → List (Elem k) → Int) (L : ℕ)
    (e : Elem k) :
    t8_forest_adapt_refine_recursive pred L e =
      if 0 < pred 1 [e] ∧ e.length < L then
        { outs := (List.finRange (k + 2)).flatMap
            (fun i => (t8_forest_adapt_refine_recursive pred L (e ++ [i])).outs),
          repl := ([e], t8_element_children e) :: (List.finRange (k + 2)).flatMap
            (fun i => (t8_forest_adapt_refine_recursive pred L (e ++ [i])).repl),
          calls := (1, [e]) :: (List.finRange (k + 2)).flatMap
            (fun i => (t8_forest_adapt_refine_recursive pred L (e ++ [i])).calls) }
      else
        { outs := [e], repl := [], calls := [(1, [e])] } := by
  rw [t8_forest_adapt_refine_recursive]
  by_cases hc : 0 < pred 1 [e] ∧ e.length < L
  · have hf : L - e.length = (L - e.length - 1) + 1 := by omega
    rw [hf, refineRecAux, if_pos hc, if_pos hc]
    have harg : ∀ i : Fin (k + 2),
        refineRecAux pred L (L - e.length - 1) (e ++ [i]) =
          t8_forest_adapt_refine_recursive pred L (e ++ [i]) := by
      intro i
      rw [t8_forest_adapt_refine_recursive]
      apply refineRecAux_irrel
      · simp only [List.length_append, List.length_cons, List.length_nil]
        omega
      · omega
    simp only [harg]
  · cases hfz : L - e.length with
    | zero => rw [refineRecAux, if_neg hc]
    | succ f => rw [refineRecAux, if_neg hc, if_neg hc]

/-- Result of `t8_forest_adapt_coarsen_recursive`: the new contents of the
tree element array, plus the replace and predicate call traces. -/
structure CoarsenRes (k : ℕ) where
  telements : List (Elem k)
  repl : List (List (Elem k) × List (Elem k))
  calls : List (ℕ × List (Elem k))
deriving DecidableEq

/-- Structural (fuel-indexed) form of the recursive coarsening loop; the
fuel is the length of the element array, which bounds the number of
iterations since each replaces `num_children` elements by one. -/
def coarsenRecAux {k : ℕ} (pred : ℕ → List (Elem k) → Int) (el_coarsen : ℕ) :
    ℕ → List (Elem k) → CoarsenRes k
  | 0, telement => { telements := telement, repl := [], calls := [] }
  | fuel + 1, telement =>
    if el_coarsen + (k + 2) ≤ telement.length ∧
        t8_element_child_id (telement.getLastD []) = k + 1 then
      if idsFrom 0 (telement.drop (telement.length - (k + 2))) = true then
        if pred (k + 2) (telement.drop (telement.length - (k + 2))) < 0 then
          let fam := telement.drop (telement.length - (k + 2))
          let par := t8_element_parent (fam.headD [])
          let r := coarsenRecAux pred el_coarsen fuel
            (telement.take (telement.length - (k + 2)) ++ [par])
          { telements := r.telements,
            repl := (fam, [par]) :: r.repl,
            calls := (k + 2, fam) :: r.calls }
        else
          { telements := telement, repl := [],
            calls := [(k + 2, telement.drop (telement.length - (k + 2)))] }
      else
        { telements := telement, repl := [], calls := [] }
    else
      { telements := telement, repl := [], calls := [] }

/-- Translation of `t8_forest_adapt_coarsen_recursive` (lines 32-99).  The
window is the last `num_children` entries of the element array
(`pos = *el_inserted - num_children`); the loop runs while the window starts
at or after `el_coarsen` (`pos >= el_coarsen`, i.e.
`el_coarsen + num_children <= length`), the last element is a last child, and
the child-id scan succeeds; the predicate is consulted only after the
child-id scan (the `isfamily &&` short-circuit), and a negative answer
replaces the window by the parent of its first element and continues with the
parent as the new last element.  See `coarsen_recursive_eq` for the defining
equation. -/
def t8_forest_adapt_coarsen_recursive {k : ℕ} (pred : ℕ → List (Elem k) → Int)
    (el_coarsen : ℕ) (telement : List (Elem k)) : CoarsenRes k :=
  coarsenRecAux pred el_coarsen telement.length telement

theorem coarsenRecAux_irrel {k : ℕ} (pred : ℕ → List (Elem k) → Int)
    (el_coarsen : ℕ) :
    ∀ (f₁ : ℕ), ∀ (f₂ : ℕ) (tel : List (Elem k)), tel.length ≤ f₁ → tel.length ≤ f₂ →
      coarsenRecAux pred el_coarsen f₁ tel = coarsenRecAux pred el_coarsen f₂ tel := by
  intro f₁
  induction f₁ with
  | zero =>
    intro f₂ tel h1 h2
    cases f₂ with
    | zero => rfl
    | succ f₂' =>
      rw [coarsenRecAux, coarsenRecAux]
      rw [if_neg]
      rintro ⟨hle, -⟩
      omega
  | succ f₁' ih =>
    intro f₂ tel h1 h2
    cases f₂ with
    | zero =>
      rw [coarsenRecAux, coarsenRecAux]
      rw [if_neg]
      rintro ⟨hle, -⟩
      omega
    | succ f₂' =>
      rw [coarsenRecAux, coarsenRecAux]
      by_cases hc1 : el_coarsen + (k + 2) ≤ tel.length ∧
          t8_element_child_id (tel.getLastD []) = k + 1
      · rw [if_pos hc1, if_pos hc1]
        by_cases hc2 : idsFrom 0 (tel.drop (tel.length - (k + 2))) = true
        · rw [if_pos hc2, if_pos hc2]
          by_cases hc3 : pred (k + 2) (tel.drop (tel.length - (k + 2))) < 0
          · rw [if_pos hc3, if_pos hc3]
            have harg : coarsenRecAux pred el_coarsen f₁'
                  (tel.take (tel.length - (k + 2)) ++ [t8_element_parent ((tel.drop (tel.length - (k + 2))).headD [])]) =
                coarsenRecAux pred el_coarsen f₂'
                  (tel.take (tel.length - (k + 2)) ++ [t8_element_parent ((tel.drop (tel.length - (k + 2))).headD [])]) := by
              apply ih
              · simp only [List.length_append, List.length_take, List.length_cons,
                  List.length_nil]
                omega
              · simp only [List.length_append, List.length_take, List.length_cons,
                  List.length_nil]
                omega
            simp only [harg]
          · rw [if_neg hc3, if_neg hc3]
        · rw [if_neg hc2, if_neg hc2]
      · rw [if_neg hc1, if_neg hc1]

/-- The defining equation of `t8_forest_adapt_coarsen_recursive`. -/
theorem coarsen_recursive_eq {k : ℕ} (pred : ℕ → List (Elem k) → Int)
    (el_coarsen : ℕ) (telement : List (Elem k)) :
    t8_forest_adapt_coarsen_recursive pred el_coarsen telement =
      if el_coarsen + (k + 2) ≤ telement.length ∧
          t8_element_child_id (telement.getLastD []) = k + 1 then
        if idsFrom 0 (telement.drop (telement.length - (k + 2))) = true then
          if pred (k + 2) (telement.drop (telement.length - (k + 2))) < 0 then
            let fam := telement.drop (telement.length - (k + 2))
            let par := t8_element_parent (fam.headD [])
            let r := t8_forest_adapt_coarsen_recursive pred el_coarsen
              (telement.take (telement.length - (k + 2)) ++ [par])
            { telements := r.telements,
              repl := (fam, [par]) :: r.repl,
              calls := (k + 2, fam) :: r.calls }
          else
            { telements := telement, repl := [],
              calls := [(k + 2, telement.drop (telement.length - (k + 2)))] }
        else
          { telements := telement, repl := [], calls := [] }
      else
        { telements := telement, repl := [], calls := [] } := by
  rw [t8_forest_adapt_coarsen_recursive]
  by_cases hc1 : el_coarsen + (k + 2) ≤ telement.length ∧
      t8_element_child_id (telement.getLastD []) = k + 1
  · have hge : 1 ≤ telement.length := by
      have := hc1.1
      omega
    have hstep : coarsenRecAux pred el_coarsen telement.length telement =
        coarsenRecAux pred el_coarsen ((telement.length - 1) + 1) telement :=
      coarsenRecAux_irrel pred el_coarsen _ _ _ (le_refl _) (by omega)
    rw [hstep, coarsenRecAux, if_pos hc1, if_pos hc1]
    by_cases hc2 : idsFrom 0 (telement.drop (telement.length - (k + 2))) = true
    · rw [if_pos hc2, if_pos hc2]
      by_cases hc3 : pred (k + 2) (telement.drop (telement.length - (k + 2))) < 0
      · rw [if_pos hc3, if_pos hc3]
        have harg : coarsenRecAux pred el_coarsen (telement.length - 1)
              (telement.take (telement.length - (k + 2)) ++ [t8_element_parent ((telement.drop (telement.length - (k + 2))).headD [])]) =
            t8_forest_adapt_coarsen_recursive pred el_coarsen
              (telement.take (telement.length - (k + 2)) ++ [t8_element_parent ((telement.drop (telement.length - (k + 2))).headD [])]) := by
          rw [t8_forest_adapt_coarsen_recursive]
          apply coarsenRecAux_irrel
          · simp only [List.length_append, List.length_take, List.length_cons,
              List.length_nil]
            omega
          · omega
        simp only [harg]
      · rw [if_neg hc3, if_neg hc3]
    · rw [if_neg hc2, if_neg hc2]
  · have hL : coarsenRecAux pred el_coarsen telement.length telement =
        { telements := telement, repl := [], calls := [] } := by
      cases hfz : telement.length with
      | zero => rw [coarsenRecAux]
      | succ f => rw [coarsenRecAux, if_neg hc1]
    rw [hL, if_neg hc1]

/-- The per-tree loop state of `t8_forest_adapt` (lines 208-306):
`el_considered` and `el_coarsen` are the cursors of the same names,
`telements` is the element array of the output tree (its length is
`el_inserted`, which the code keeps equal to the array length), and `repl`
and `calls` are the callback traces. -/
structure TState (k : ℕ) where
  el_considered : ℕ
  el_coarsen : ℕ
  telements : List (Elem k)
  repl : List (List (Elem k) × List (Elem k))
  calls : List (ℕ × List (Elem k))
deriving DecidableEq

/-- The window scan of lines 212-227: the window is `num_children` long
exactly when `num_children` further source elements exist and their child ids
are `0, 1, 2, …` in order; otherwise only the first element is considered. -/
def familyWindow {k : ℕ} (src : List (Elem k)) (c : ℕ) : Bool :=
  decide (c + (k + 2) ≤ src.length) && idsFrom 0 ((src.drop c).take (k + 2))

/-- One iteration of the per-tree loop of `t8_forest_adapt` (lines 208-306).
The three branches are refine (`refine > 0`, lines 232-270, recursive or
not), coarsen (`refine < 0`, lines 271-289; note `el_considered` advances by
`num_children` and the parent of `elements_from[0]` is pushed), and keep
(lines 290-305).  In the recursive coarsen and keep branches the recursive
coarsening loop runs when the newly inserted element is a last child. -/
def t8_forest_adapt_step {k : ℕ} (pred : ℕ → List (Elem k) → Int) (rec : Bool)
    (L : ℕ) (src : List (Elem k)) (s : TState k) : TState k :=
  let c := s.el_considered
  let n : ℕ := if familyWindow src c then k + 2 else 1
  let w := (src.drop c).take n
  let refine := pred n w
  let x := src.getD c []
  let calls' := s.calls ++ [(n, w)]
  if 0 < refine then
    if rec then
      { el_considered := c + 1,
        el_coarsen := s.telements.length + (k + 2),
        telements := s.telements ++ (List.finRange (k + 2)).flatMap
          (fun i => (t8_forest_adapt_refine_recursive pred L (x ++ [i])).outs),
        repl := s.repl ++ ([x], t8_element_children x) :: (List.finRange (k + 2)).flatMap
          (fun i => (t8_forest_adapt_refine_recursive pred L (x ++ [i])).repl),
        calls := calls' ++ (List.finRange (k + 2)).flatMap
          (fun i => (t8_forest_adapt_refine_recursive pred L (x ++ [i])).calls) }
    else
      { el_considered := c + 1,
        el_coarsen := s.el_coarsen,
        telements := s.telements ++ t8_element_children x,
        repl := s.repl ++ [([x], t8_element_children x)],
        calls := calls' }
  else if refine < 0 then
    let wK := (src.drop c).take (k + 2)
    let par := t8_element_parent x
    if rec && (t8_element_child_id par == k + 1) then
      let r := t8_forest_adapt_coarsen_recursive pred s.el_coarsen (s.telements ++ [par])
      { el_considered := c + (k + 2),
        el_coarsen := s.el_coarsen,
        telements := r.telements,
        repl := s.repl ++ (wK, [par]) :: r.repl,
        calls := calls' ++ r.calls }
    else
      { el_considered := c + (k + 2),
        el_coarsen := s.el_coarsen,
        telements := s.telements ++ [par],
        repl := s.repl ++ [(wK, [par])],
        calls := calls' }
  else
    if rec && (t8_element_child_id x == k + 1) then
      let r := t8_forest_adapt_coarsen_recursive pred s.el_coarsen (s.telements ++ [x])
      { el_considered := c + 1,
        el_coarsen := s.el_coarsen,
        telements := r.telements,
        repl := s.repl ++ r.repl,
        calls := calls' ++ r.calls }
    else
      { el_considered := c + 1,
        el_coarsen := s.el_coarsen,
        telements := s.telements ++ [x],
        repl := s.repl,
        calls := calls' }

theorem adapt_step_considered {k : ℕ} (pred : ℕ → List (Elem k) → Int)
    (rec : Bool) (L : ℕ) (src : List (Elem k)) (s : TState k) :
    s.el_considered < (t8_forest_adapt_step pred rec L src s).el_considered := by
  rw [t8_forest_adapt_step]
  repeat' split
  all_goals try simp
  all_goals repeat' split
  all_goals try simp
  all_goals omega

/-- Structural (fuel-indexed) form of the per-tree `while` loop; the fuel is
the number of source elements not yet considered, which bounds the number of
iterations because every iteration advances `el_considered`. -/
def t8_forest_adapt_loopAux {k : ℕ} (pred : ℕ → List (Elem k) → Int) (rec : Bool)
    (L : ℕ) (src : List (Elem k)) : ℕ → TState k → TState k
  | 0, s => s
  | fuel + 1, s =>
    if s.el_considered < src.length then
      t8_forest_adapt_loopAux pred rec L src fuel (t8_forest_adapt_step pred rec L src s)
    else
      s

/-- The `while (el_considered < num_el_from)` loop of `t8_forest_adapt`
(see `adapt_loop_eq` for its defining equation). -/
def t8_forest_adapt_loop {k : ℕ} (pred : ℕ → List (Elem k) → Int) (rec : Bool)
    (L : ℕ) (src : List (Elem k)) (s : TState k) : TState k :=
  t8_forest_adapt_loopAux pred rec L src (src.length - s.el_considered) s

theorem loopAux_irrel {k : ℕ} (pred : ℕ → List (Elem k) → Int) (rec : Bool)
    (L : ℕ) (src : List (Elem k)) :
    ∀ (f₁ : ℕ), ∀ (f₂ : ℕ) (s : TState k),
      src.length - s.el_considered ≤ f₁ → src.length - s.el_considered ≤ f₂ →
      t8_forest_adapt_loopAux pred rec L src f₁ s =
        t8_forest_adapt_loopAux pred rec L src f₂ s := by
  intro f₁
  induction f₁ with
  | zero =>
    intro f₂ s h1 h2
    cases f₂ with
    | zero => rfl
    | succ f₂' =>
      rw [t8_forest_adapt_loopAux, t8_forest_adapt_loopAux, if_neg]
      omega
  | succ f₁' ih =>
    intro f₂ s h1 h2
    cases f₂ with
    | zero =>
      rw [t8_forest_adapt_loopAux, t8_forest_adapt_loopAux, if_neg]
      omega
    | succ f₂' =>
      rw [t8_forest_adapt_loopAux, t8_forest_adapt_loopAux]
      by_cases hc : s.el_considered < src.length
      · rw [if_pos hc, if_pos hc]
        apply ih
        · have := adapt_step_considered pred rec L src s
          omega
        · have := adapt_step_considered pred rec L src s
          omega
      · rw [if_neg hc, if_neg hc]

/-- The defining equation of the per-tree loop. -/
theorem adapt_loop_eq {k : ℕ} (pred : ℕ → List (Elem k) → Int) (rec : Bool)
    (L : ℕ) (src : List (Elem k)) (s : TState k) :
    t8_forest_adapt_loop pred rec L src s =
      if s.el_considered < src.length then
        t8_forest_adapt_loop pred rec L src (t8_forest_adapt_step pred rec L src s)
      else
        s := by
  rw [t8_forest_adapt_loop]
  by_cases hc : s.el_considered < src.length
  · rw [if_pos hc]
    have hf : src.length - s.el_considered = (src.length - s.el_considered - 1) + 1 := by
      omega
    rw [hf, t8_forest_adapt_loopAux, if_pos hc, t8_forest_adapt_loop]
    apply loopAux_irrel
    · have := adapt_step_considered pred rec L src s
      omega
    · omega
  · rw [if_neg hc]
    cases hfz : src.length - s.el_considered with
    | zero => rw [t8_forest_adapt_loopAux]
    | succ f => rw [t8_forest_adapt_loopAux, if_neg hc]

/-- Per-tree adaptation: lines 198-320 of `t8_forest_adapt`.  The code reads
element `0` of the source tree unconditionally to obtain `num_children` for
the whole tree (lines 202-205, an assertion failure on an empty tree — hence
`none`), then runs the window loop from empty output.  In this model
`t8_element_num_children` is the per-class constant `k + 2` for every
element, as for all non-pyramidal classes (the code comment notes pyramids
would be a problem). -/
def t8_forest_adapt_tree {k : ℕ} (pred : ℕ → List (Elem k) → Int) (rec : Bool)
    (L : ℕ) (src : List (Elem k)) : Option (TState k) :=
  match src with
  | [] => none
  | e :: _ =>
    let _num_children := t8_element_num_children k e
    some (t8_forest_adapt_loop pred rec L src ⟨0, 0, [], [], []⟩)

/-- The tree iteration of `t8_forest_adapt` (lines 189-325): processes the
local trees in order, assigning each output tree its `elements_offset`
(`el_offset`, the running sum of inserted counts) and accumulating
`local_num_elements`. -/
def t8_forest_adapt_go {k : ℕ} (pred : ℕ → List (Elem k) → Int) (rec : Bool)
    (L : ℕ) : List (List (Elem k)) → ℕ → Option (List (List (Elem k) × ℕ) × ℕ)
  | [], off => some ([], off)
  | t :: ts, off =>
    match t8_forest_adapt_tree pred rec L t with
    | none => none
    | some s =>
      match t8_forest_adapt_go pred rec L ts (off + s.telements.length) with
      | none => none
      | some (rest, total) => some ((s.telements, off) :: rest, total)

/-- The committed output forest: per tree the element sequence and its
`elements_offset`, plus `local_num_elements`. -/
structure ForestOut (k : ℕ) where
  trees : List (List (Elem k) × ℕ)
  local_num_elements : ℕ
deriving DecidableEq

/-- Translation of `t8_forest_adapt` (lines 150-332) on the local trees of
the source forest. -/
def t8_forest_adapt {k : ℕ} (pred : ℕ → List (Elem k) → Int) (rec : Bool)
    (L : ℕ) (trees : List (List (Elem k))) : Option (ForestOut k) :=
  (t8_forest_adapt_go pred rec L trees 0).map (fun r => ⟨r.1, r.2⟩)

/-- Induction principle for the per-tree loop: any property preserved by
`t8_forest_adapt_step` on active states holds of the loop result. -/
theorem t8_loop_ind {k : ℕ} (pred : ℕ → List (Elem k) → Int) (rec : Bool)
    (L : ℕ) (src : List (Elem k)) (P : TState k → Prop)
    (hstep : ∀ s, s.el_considered < src.length → P s →
      P (t8_forest_adapt_step pred rec L src s))
    (s : TState k) (hP : P s) :
    P (t8_forest_adapt_loop pred rec L src s) := by
  rw [adapt_loop_eq]
  split
  · next h => exact t8_loop_ind pred rec L src P hstep _ (hstep s h hP)
  · exact hP
termination_by src.length - s.el_considered
decreasing_by
  have := adapt_step_considered pred rec L src s
  omega

/-- The loop exits only once the considered cursor has passed the last source
element. -/
theorem t8_loop_final {k : ℕ} (pred : ℕ → List (Elem k) → Int) (rec : Bool)
    (L : ℕ) (src : List (Elem k)) (s : TState k) :
    ¬ (t8_forest_adapt_loop pred rec L src s).el_considered < src.length := by
  rw [adapt_loop_eq]
  split
  · exact t8_loop_final pred rec L src _
  · assumption
termination_by src.length - s.el_considered
decreasing_by
  have := adapt_step_considered pred rec L src s
  omega

/-- If the predicate never answers negatively, the recursive coarsening loop
leaves the element array unchanged. -/
theorem coarsenRec_nonneg {k : ℕ} {pred : ℕ → List (Elem k) → Int}
    (hp : ∀ w, ¬ pred (k + 2) w < 0) (fl : ℕ) (out : List (Elem k)) :
    (t8_forest_adapt_coarsen_recursive pred fl out).telements = out := by
  rw [coarsen_recursive_eq]
  split
  · split
    · split
      · next h => exact absurd h (hp _)
      · rfl
    · rfl
  · rfl

/-- With the always-keep predicate, the loop copies the source elements one
by one. -/
theorem adapt_loop_keep {k : ℕ} {pred : ℕ → List (Elem k) → Int}
    (hp : ∀ n w, pred n w = 0) (rec : Bool) (L : ℕ) (src : List (Elem k)) :
    (t8_forest_adapt_loop pred rec L src ⟨0, 0, [], [], []⟩).telements = src := by
  have key := t8_loop_ind pred rec L src
    (fun s => s.telements = src.take s.el_considered ∧ s.el_considered ≤ src.length)
    (by
      intro s hlt hP
      obtain ⟨ht, hle⟩ := hP
      have hx : src.getD s.el_considered [] = src.get ⟨s.el_considered, hlt⟩ := by
        simp [List.getD_eq_getElem?_getD, List.getElem?_eq_getElem hlt]
      have htake : List.take (s.el_considered + 1) src =
          List.take s.el_considered src ++ [src.get ⟨s.el_considered, hlt⟩] := by
        rw [List.take_succ]
        simp [List.getElem?_eq_getElem hlt]
      rw [t8_forest_adapt_step]
      simp only [hp, lt_irrefl, if_false]
      split
      · refine ⟨?_, ?_⟩
        · rw [coarsenRec_nonneg (by intro w; simp [hp])]
          rw [ht, hx, htake]
        · show s.el_considered + 1 ≤ src.length
          omega
      · refine ⟨?_, ?_⟩
        · rw [ht, hx, htake]
        · show s.el_considered + 1 ≤ src.length
          omega)
    ⟨0, 0, [], [], []⟩ (by simp)
  have hfin := t8_loop_final pred rec L src ⟨0, 0, [], [], []⟩
  obtain ⟨h1, h2⟩ := key
  have heq : (t8_forest_adapt_loop pred rec L src ⟨0, 0, [], [], []⟩).el_considered
      = src.length := by omega
  rw [h1, heq, List.take_length]

theorem adapt_tree_keep {k : ℕ} {pred : ℕ → List (Elem k) → Int}
    (hp : ∀ n w, pred n w = 0) (rec : Bool) (L : ℕ) (src : List (Elem k))
    (hne : src ≠ []) :
    (t8_forest_adapt_tree pred rec L src).map TState.telements = some src := by
  cases src with
  | nil => exact absurd rfl hne
  | cons e t =>
    have h := adapt_loop_keep hp rec L (e :: t)
    simp [t8_forest_adapt_tree, h]

theorem adapt_go_keep {k : ℕ} {pred : ℕ → List (Elem k) → Int}
    (hp : ∀ n w, pred n w = 0) (rec : Bool) (L : ℕ) :
    ∀ (trees : List (List (Elem k))) (off : ℕ), (∀ t ∈ trees, t ≠ []) →
      ∃ r, t8_forest_adapt_go pred rec L trees off = some r ∧
        r.1.map Prod.fst = trees := by
  intro trees
  induction trees with
  | nil =>
    intro off _
    exact ⟨([], off), rfl, rfl⟩
  | cons t ts ih =>
    intro off h
    have hs := adapt_tree_keep hp rec L t (h t (by simp))
    obtain ⟨s, hseq, hst⟩ : ∃ s, t8_forest_adapt_tree pred rec L t = some s ∧
        s.telements = t := by
      cases hq : t8_forest_adapt_tree pred rec L t with
      | none => rw [hq] at hs; simp at hs
      | some s =>
        rw [hq] at hs
        simp at hs
        exact ⟨s, rfl, hs⟩
    obtain ⟨⟨r1, r2⟩, hr, hmap⟩ := ih (off + s.telements.length)
      (fun t' h' => h t' (by simp [h']))
    refine ⟨((s.telements, off) :: r1, r2), ?_, ?_⟩
    · rw [t8_forest_adapt_go, hseq]
      dsimp only
      rw [hr]
    · simp [hmap, hst]

/-- C2: with a predicate that answers `0` on every call, `t8_forest_adapt`
reproduces every (non-empty) source tree element-for-element, for either
setting of the recursive flag. -/
theorem C2_adapt_identity {k : ℕ} (pred : ℕ → List (Elem k) → Int)
    (hp : ∀ n w, pred n w = 0) (rec : Bool) (L : ℕ)
    (trees : List (List (Elem k))) (hne : ∀ t ∈ trees, t ≠ []) :
    (t8_forest_adapt pred rec L trees).map (fun f => f.trees.map Prod.fst) =
      some trees := by
  obtain ⟨⟨r1, r2⟩, hr, hmap⟩ := adapt_go_keep hp rec L trees 0 hne
  rw [t8_forest_adapt, hr]
  simpa using hmap

theorem C2_adapt_identity_witness :
    (∀ t ∈ [[([] : Elem 0)], [[0], [1]]], t ≠ []) ∧
    (t8_forest_adapt (fun _ _ => (0 : Int)) true 2 [[([] : Elem 0)], [[0], [1]]]).map
      (fun f => f.trees.map Prod.fst) = some [[([] : Elem 0)], [[0], [1]]] :=
  ⟨by decide,
    C2_adapt_identity (fun _ _ => (0 : Int)) (fun _ _ => rfl) true 2
      [[([] : Elem 0)], [[0], [1]]] (by decide)⟩

theorem adapt_go_offsets {k : ℕ} (pred : ℕ → List (Elem k) → Int) (rec : Bool)
    (L : ℕ) :
    ∀ (trees : List (List (Elem k))) (off : ℕ) (r : List (List (Elem k) × ℕ) × ℕ),
      t8_forest_adapt_go pred rec L trees off = some r →
      (∀ i (hi : i < r.1.length),
        (r.1.get ⟨i, hi⟩).2 = off + (((r.1.take i).map (fun p => p.1.length)).sum)) ∧
      r.2 = off + ((r.1.map (fun p => p.1.length)).sum) := by
  intro trees
  induction trees with
  | nil =>
    intro off r hr
    rw [t8_forest_adapt_go] at hr
    obtain rfl : ([], off) = r := by simpa using hr
    constructor
    · intro i hi
      simp at hi
    · simp
  | cons t ts ih =>
    intro off r hr
    rw [t8_forest_adapt_go] at hr
    cases hq : t8_forest_adapt_tree pred rec L t with
    | none => rw [hq] at hr; simp at hr
    | some s =>
      rw [hq] at hr
      dsimp only at hr
      cases hg : t8_forest_adapt_go pred rec L ts (off + s.telements.length) with
      | none => rw [hg] at hr; simp at hr
      | some r' =>
        rw [hg] at hr
        obtain ⟨rest, total⟩ := r'
        dsimp only at hr
        obtain rfl : ((s.telements, off) :: rest, total) = r := by simpa using hr
        obtain ⟨ih1, ih2⟩ := ih (off + s.telements.length) (rest, total) hg
        dsimp only at ih1 ih2
        constructor
        · intro i hi
          cases i with
          | zero => simp
          | succ i' =>
            have hi' : i' < rest.length := by simpa using hi
            have h2 := ih1 i' hi'
            simp only [List.get] at h2 ⊢
            rw [h2]
            simp only [List.take_succ_cons, List.map_cons, List.sum_cons]
            omega
        · dsimp only
          rw [ih2]
          simp only [List.map_cons, List.sum_cons]
          omega

/-- C9: after `t8_forest_adapt`, each output tree's `elements_offset` is the
exclusive prefix sum of the output sizes of the earlier local trees, and
`local_num_elements` is the sum of all output tree sizes. -/
theorem C9_offsets {k : ℕ} (pred : ℕ → List (Elem k) → Int) (rec : Bool)
    (L : ℕ) (trees : List (List (Elem k))) (f : ForestOut k)
    (hf : t8_forest_adapt pred rec L trees = some f) :
    (∀ i (hi : i < f.trees.length),
      (f.trees.get ⟨i, hi⟩).2 = ((f.trees.take i).map (fun p => p.1.length)).sum) ∧
    f.local_num_elements = (f.trees.map (fun p => p.1.length)).sum := by
  rw [t8_forest_adapt] at hf
  cases hg : t8_forest_adapt_go pred rec L trees 0 with
  | none => rw [hg] at hf; simp at hf
  | some r =>
    rw [hg] at hf
    obtain ⟨h1, h2⟩ := adapt_go_offsets pred rec L trees 0 r hg
    obtain rfl : (⟨r.1, r.2⟩ : ForestOut k) = f := by simpa using hf
    constructor
    · intro i hi
      simpa using h1 i hi
    · simpa using h2

theorem C9_offsets_witness :
    (t8_forest_adapt (fun _ _ => (0 : Int)) false 1 [[([] : Elem 0)], [[0], [1]]]
      = some ⟨[([[]], 0), ([[0], [1]], 1)], 3⟩) ∧
    (∀ i (hi : i < ([([[]], 0), ([[0], [1]], 1)] : List (List (Elem 0) × ℕ)).length),
      (([([[]], 0), ([[0], [1]], 1)] : List (List (Elem 0) × ℕ)).get ⟨i, hi⟩).2 =
        ((([([[]], 0), ([[0], [1]], 1)] : List (List (Elem 0) × ℕ)).take i).map
          (fun p => p.1.length)).sum) :=
  ⟨by decide,
    (C9_offsets (fun _ _ => (0 : Int)) false 1 [[([] : Elem 0)], [[0], [1]]]
      ⟨[([[]], 0), ([[0], [1]], 1)], 3⟩ (by decide)).1⟩

/-- C10: `t8_forest_adapt` reads element `0` of each source tree before any
window is inspected, to fix `num_children` for the whole tree: an empty local
source tree is rejected (the model's `none`; an `sc_array` assertion failure
in the code), and in this element model every element of the tree indeed has
the number of children read from the tree's first element. -/
theorem C10_first_element {k : ℕ} (pred : ℕ → List (Elem k) → Int) (rec : Bool)
    (L : ℕ) :
    (t8_forest_adapt_tree pred rec L ([] : List (Elem k)) = none) ∧
    (∀ src : List (Elem k), src ≠ [] →
      (t8_forest_adapt_tree pred rec L src).isSome = true) ∧
    (∀ e e' : Elem k, t8_element_num_children k e' = t8_element_num_children k e) := by
  refine ⟨rfl, ?_, fun e e' => rfl⟩
  intro src hne
  cases src with
  | nil => exact absurd rfl hne
  | cons e t => rfl

theorem C10_first_element_witness :
    (t8_forest_adapt_tree (fun _ _ => (0 : Int)) false 1 ([] : List (Elem 0)) = none) ∧
    (t8_forest_adapt_tree (fun _ _ => (0 : Int)) false 1 [([] : Elem 0)]).isSome = true :=
  ⟨(C10_first_element (fun _ _ => (0 : Int)) false 1).1,
    (C10_first_element (fun _ _ => (0 : Int)) false 1).2.1 [([] : Elem 0)] (by decide)⟩

/-- C3 (amended): on every refine decision in recursive mode, the adapt
engine sets `el_coarsen` to `el_inserted + num_children` — the number of
elements already committed at that moment (the refined children are not yet
committed, line 238 runs before the children are created) plus the number of
children — not to the bare inserted count. -/
theorem C3_coarsen_floor {k : ℕ} (pred : ℕ → List (Elem k) → Int) (L : ℕ)
    (src : List (Elem k)) (s : TState k)
    (hr : 0 < pred (if familyWindow src s.el_considered then k + 2 else 1)
      ((src.drop s.el_considered).take
        (if familyWindow src s.el_considered then k + 2 else 1))) :
    (t8_forest_adapt_step pred true L src s).el_coarsen =
      s.telements.length + (k + 2) := by
  rw [t8_forest_adapt_step]
  rw [if_pos hr, if_pos rfl]

theorem C3_coarsen_floor_witness :
    (t8_forest_adapt_step (fun _ _ => (1 : Int)) true 3 [[]]
      (⟨0, 0, [], [], []⟩ : TState 0)).el_coarsen = 2 :=
  C3_coarsen_floor (fun _ _ => (1 : Int)) 3 [[]] ⟨0, 0, [], [], []⟩ (by decide)

/-- C3 counterexample: at a refine decision with an empty output array the
inserted counter is `0`, yet the code sets the coarsen floor to `2`
(`el_inserted + num_children`), not to the inserted counter. -/
theorem C3_coarsen_floor_counterexample :
    (t8_forest_adapt_step (fun _ _ => (1 : Int)) true 3 [[]]
        (⟨0, 0, [], [], []⟩ : TState 0)).el_coarsen = 2 ∧
    ¬ (t8_forest_adapt_step (fun _ _ => (1 : Int)) true 3 [[]]
        (⟨0, 0, [], [], []⟩ : TState 0)).el_coarsen =
      (⟨0, 0, [], [], []⟩ : TState 0).telements.length := by
  decide

/-- C5: when the predicate answers `−1` on a family-candidate window, the
coarsen branch pushes exactly one element — the parent of the window's first
element — advances `el_considered` by `num_children`, and records the replace
invocation whose old elements are the `num_children` consumed source elements
and whose new element is that single parent (for the non-recursive flag the
branch result is exactly this; for the recursive flag the replace record is
followed only by whatever the subsequent recursive-coarsening cascade adds). -/
theorem C5_coarsen_branch {k : ℕ} (pred : ℕ → List (Elem k) → Int) (L : ℕ)
    (src : List (Elem k)) (s : TState k)
    (hfam : familyWindow src s.el_considered = true)
    (hneg : pred (k + 2) ((src.drop s.el_considered).take (k + 2)) < 0) :
    (t8_forest_adapt_step pred false L src s).telements =
        s.telements ++ [t8_element_parent (src.getD s.el_considered [])] ∧
    (t8_forest_adapt_step pred false L src s).repl =
        s.repl ++ [((src.drop s.el_considered).take (k + 2),
          [t8_element_parent (src.getD s.el_considered [])])] ∧
    (∀ rec : Bool,
      (t8_forest_adapt_step pred rec L src s).el_considered =
          s.el_considered + (k + 2) ∧
      ∃ tail, (t8_forest_adapt_step pred rec L src s).repl =
          s.repl ++ ((src.drop s.el_considered).take (k + 2),
            [t8_element_parent (src.getD s.el_considered [])]) :: tail) := by
  have hnotpos : ¬ (0 < pred (k + 2) ((src.drop s.el_considered).take (k + 2))) := by
    omega
  refine ⟨?_, ?_, ?_⟩
  · simp [t8_forest_adapt_step, hfam, hnotpos, hneg]
  · simp [t8_forest_adapt_step, hfam, hnotpos, hneg]
  · intro rec
    simp only [t8_forest_adapt_step, hfam, if_true, hnotpos, hneg, ite_true, ite_false,
      if_false, eq_self_iff_true, not_false_iff]
    split
    · exact ⟨rfl, _, rfl⟩
    · exact ⟨rfl, [], rfl⟩

theorem Adj_ext_right {k : ℕ} {a x : Elem k} (t' : ℕ) (h : Adj a x) :
    Adj a (x ++ List.replicate t' 0) := by
  have := Adj_ext 0 t' h
  simpa using this

theorem Adj_ext_left {k : ℕ} {x b : Elem k} (s' : ℕ) (h : Adj x b) :
    Adj (x ++ List.replicate s' (Fin.last (k + 1))) b := by
  have := Adj_ext s' 0 h
  simpa using this

theorem children_getLast {k : ℕ} (p : Elem k) :
    (t8_element_children p).getLast? = some (p ++ [Fin.last (k + 1)]) := by
  rw [List.getLast?_eq_getElem?]
  rw [children_length]
  have hidx : k + 2 - 1 = k + 1 := by omega
  rw [hidx]
  have hlt : k + 1 < (t8_element_children p).length := by
    rw [children_length]
    omega
  rw [List.getElem?_eq_getElem hlt]
  have := children_get p (k + 1) hlt
  simp only [List.get] at this
  rw [show (t8_element_children p)[k+1] = (t8_element_children p).get ⟨k+1, hlt⟩ from rfl,
    this]
  rfl

theorem chain_children {k : ℕ} (p : Elem k) :
    List.Chain' Adj (t8_element_children p) := by
  rw [List.chain'_iff_get]
  intro i h
  rw [children_length] at h
  have hi1 : i < (t8_element_children p).length := by rw [children_length]; omega
  have hi2 : i + 1 < (t8_element_children p).length := by rw [children_length]; omega
  rw [children_get p i hi1, children_get p (i + 1) hi2]
  exact Adj_sib p _ _ (by simp)

/-- Splicing: replacing the middle element `x` of an `Adj`-chain by a
non-empty chain that starts at `x ++ 0^m` and ends at `x ++ max^m'` keeps the
chain property. -/
theorem chain_splice {k : ℕ} {A B N : List (Elem k)} {x : Elem k}
    (h : List.Chain' Adj (A ++ x :: B))
    (hN : List.Chain' Adj N) (hne : N ≠ [])
    (hhead : ∃ m, N.head? = some (x ++ List.replicate m 0))
    (hlast : ∃ m, N.getLast? = some (x ++ List.replicate m (Fin.last (k + 1)))) :
    List.Chain' Adj (A ++ N ++ B) := by
  obtain ⟨m, hh⟩ := hhead
  obtain ⟨m', hl⟩ := hlast
  have h' : List.Chain' Adj (A ++ [x] ++ B) := by simpa using h
  rw [List.chain'_append] at h'
  obtain ⟨hAx, hB, hxB⟩ := h'
  rw [List.chain'_append] at hAx
  obtain ⟨hA, _, hAx2⟩ := hAx
  rw [List.append_assoc, List.chain'_append, List.chain'_append]
  refine ⟨hA, ⟨hN, hB, ?_⟩, ?_⟩
  · intro y hy z hz
    rw [hl] at hy
    simp only [Option.mem_def, Option.some_inj] at hy
    subst hy
    have hxz : Adj x z := by
      apply hxB
      · simp
      · exact hz
    exact Adj_ext_left m' hxz
  · intro a ha y hy
    have hax : Adj a x := by
      apply hAx2 a ha
      simp
    rw [List.head?_append_of_ne_nil _ hne] at hy
    rw [hh] at hy
    simp only [Option.mem_def, Option.some_inj] at hy
    subst hy
    exact Adj_ext_right m hax

/-- Coarsening surgery: replacing a complete family by its parent keeps the
chain property. -/
theorem chain_coarsen {k : ℕ} {A B : List (Elem k)} {p : Elem k}
    (h : List.Chain' Adj (A ++ t8_element_children p ++ B)) :
    List.Chain' Adj (A ++ p :: B) := by
  rw [List.chain'_append, List.chain'_append] at h
  obtain ⟨⟨hA, _, hAc⟩, hB, hcB⟩ := h
  have h1 : List.Chain' Adj (A ++ [p] ++ B) := by
    rw [List.chain'_append, List.chain'_append]
    refine ⟨⟨hA, by simp, ?_⟩, hB, ?_⟩
    · intro a ha y hy
      simp only [List.head?_cons, Option.mem_def, Option.some_inj] at hy
      subst hy
      have hax : Adj a (p ++ [(0 : Fin (k + 2))]) := by
        apply hAc a ha
        rw [children_head]
        rfl
      exact Adj_parent_right hax
    · intro y hy z hz
      simp only [List.getLast?_append, List.getLast?_singleton] at hy
      have hy' : p = y := by
        simpa using hy
      subst hy'
      have hlz : Adj (p ++ [Fin.last (k + 1)]) z := by
        apply hcB
        · rw [List.getLast?_append_of_ne_nil]
          · rw [children_getLast]
            rfl
          · intro hc
            have := congrArg List.length hc
            rw [children_length] at this
            simp at this
        · exact hz
      exact Adj_parent_left hlz
  simpa using h1

/-- The facts needed about the output block of one recursive-refinement call:
it is a non-empty `Adj`-chain of descendants of `e`, starting on the
first-child chain below `e` and ending on the last-child chain below `e`, and
it consults the predicate only on singletons. -/
def RefinePack {k : ℕ} (pred : ℕ → List (Elem k) → Int) (L : ℕ) (e : Elem k) : Prop :=
  (t8_forest_adapt_refine_recursive pred L e).outs ≠ [] ∧
  (∃ m, (t8_forest_adapt_refine_recursive pred L e).outs.head? =
    some (e ++ List.replicate m 0)) ∧
  (∃ m, (t8_forest_adapt_refine_recursive pred L e).outs.getLast? =
    some (e ++ List.replicate m (Fin.last (k + 1)))) ∧
  List.Chain' Adj (t8_forest_adapt_refine_recursive pred L e).outs ∧
  (∀ pr ∈ (t8_forest_adapt_refine_recursive pred L e).calls, pr.1 = 1)

/-- Combining consecutive blocks: if every element `x` of an `Adj`-chain `l`
carries a non-empty block `g x` that is itself an `Adj`-chain anchored between
`x ++ 0^m` and `x ++ max^m`, then the concatenation of the blocks is an
`Adj`-chain anchored between the same chains below `l`'s first and last
elements. -/
theorem flat_block_facts {k : ℕ} (g : Elem k → List (Elem k)) :
    ∀ l : List (Elem k),
      (∀ x ∈ l, g x ≠ [] ∧
        (∃ m, (g x).head? = some (x ++ List.replicate m 0)) ∧
        (∃ m, (g x).getLast? = some (x ++ List.replicate m (Fin.last (k + 1)))) ∧
        List.Chain' Adj (g x)) →
      List.Chain' Adj l →
      List.Chain' Adj (l.flatMap g) ∧
      (∀ x0, l.head? = some x0 → ∃ m,
        (l.flatMap g).head? = some (x0 ++ List.replicate m 0)) ∧
      (∀ x1, l.getLast? = some x1 → ∃ m,
        (l.flatMap g).getLast? = some (x1 ++ List.replicate m (Fin.last (k + 1)))) ∧
      (l ≠ [] → l.flatMap g ≠ []) := by
  intro l
  induction l with
  | nil =>
    intro _ _
    refine ⟨by simp, ?_, ?_, by simp⟩
    · intro x0 h; simp at h
    · intro x1 h; simp at h
  | cons x l' ih =>
    intro hpack hch
    obtain ⟨hne, ⟨mh, hh⟩, ⟨ml, hl⟩, hcx⟩ := hpack x (by simp)
    obtain ⟨ihc, ihh, ihl, ihne⟩ := ih (fun y hy => hpack y (by simp [hy])) hch.tail
    have hflat : (x :: l').flatMap g = g x ++ l'.flatMap g := by
      rw [List.flatMap_cons]
    refine ⟨?_, ?_, ?_, ?_⟩
    · rw [hflat, List.chain'_append]
      refine ⟨hcx, ihc, ?_⟩
      intro a ha y hy
      rw [hl] at ha
      simp only [Option.mem_def, Option.some_inj] at ha
      subst ha
      cases l' with
      | nil => simp at hy
      | cons z l'' =>
        obtain ⟨mz, hz⟩ := ihh z rfl
        rw [hz] at hy
        simp only [Option.mem_def, Option.some_inj] at hy
        subst hy
        have hxz : Adj x z := (List.chain'_cons.mp hch).1
        exact Adj_ext ml mz hxz
    · intro x0 h0
      simp only [List.head?_cons, Option.some_inj] at h0
      subst h0
      refine ⟨mh, ?_⟩
      rw [hflat, List.head?_append_of_ne_nil _ hne]
      exact hh
    · intro x1 h1
      cases l' with
      | nil =>
        simp only [List.getLast?_singleton, Option.some_inj] at h1
        subst h1
        refine ⟨ml, ?_⟩
        rw [hflat]
        simpa using hl
      | cons z l'' =>
        have h1' : (z :: l'').getLast? = some x1 := by
          rw [← h1]
          rfl
        obtain ⟨m1, hm1⟩ := ihl x1 h1'
        refine ⟨m1, ?_⟩
        rw [hflat, List.getLast?_append_of_ne_nil]
        · exact hm1
        · exact ihne (by simp)
    · intro _
      rw [hflat]
      intro hcon
      rw [List.append_eq_nil] at hcon
      exact hne hcon.1

theorem concat_replicate_zero {k : ℕ} (e : Elem k) (m : ℕ) :
    (e ++ [(0 : Fin (k + 2))]) ++ List.replicate m 0 = e ++ List.replicate (m + 1) 0 := by
  rw [List.append_assoc, List.replicate_succ]
  rfl

theorem concat_replicate_last {k : ℕ} (e : Elem k) (m : ℕ) :
    (e ++ [Fin.last (k + 1)]) ++ List.replicate m (Fin.last (k + 1)) =
      e ++ List.replicate (m + 1) (Fin.last (k + 1)) := by
  rw [List.append_assoc, List.replicate_succ]
  rfl

theorem refine_pack_base {k : ℕ} (pred : ℕ → List (Elem k) → Int) (L : ℕ)
    (e : Elem k) (hng : ¬ (0 < pred 1 [e] ∧ e.length < L)) :
    RefinePack pred L e := by
  rw [RefinePack, refine_recursive_eq, if_neg hng]
  refine ⟨by simp, ⟨0, by simp⟩, ⟨0, by simp⟩, by simp, ?_⟩
  intro pr hpr
  simp at hpr
  rw [hpr]

theorem refine_pack {k : ℕ} (pred : ℕ → List (Elem k) → Int) (L : ℕ) :
    ∀ (N : ℕ) (e : Elem k), L - e.length ≤ N → RefinePack pred L e := by
  intro N
  induction N with
  | zero =>
    intro e hN
    apply refine_pack_base
    rintro ⟨-, hlen⟩
    omega
  | succ N' ih =>
    intro e hN
    by_cases hg : 0 < pred 1 [e] ∧ e.length < L
    · have hpacks : ∀ x ∈ t8_element_children e, RefinePack pred L x := by
        intro x hx
        apply ih
        have := mem_children_length hx
        omega
      obtain ⟨fc, fh, fl, fne⟩ :=
        flat_block_facts (fun y => (t8_forest_adapt_refine_recursive pred L y).outs)
          (t8_element_children e)
          (fun x hx => ⟨(hpacks x hx).1, (hpacks x hx).2.1, (hpacks x hx).2.2.1,
            (hpacks x hx).2.2.2.1⟩)
          (chain_children e)
      have hflatmap : (t8_element_children e).flatMap
            (fun x => (t8_forest_adapt_refine_recursive pred L x).outs) =
          (List.finRange (k + 2)).flatMap
            (fun i => (t8_forest_adapt_refine_recursive pred L (e ++ [i])).outs) := by
        rw [t8_element_children, List.flatMap_map]
      rw [RefinePack, refine_recursive_eq, if_pos hg]
      refine ⟨?_, ?_, ?_, ?_, ?_⟩
      · rw [← hflatmap]
        exact fne (by
          intro hcon
          have := congrArg List.length hcon
          rw [children_length] at this
          simp at this)
      · obtain ⟨m, hm⟩ := fh (e ++ [(0 : Fin (k + 2))]) (children_head e)
        refine ⟨m + 1, ?_⟩
        rw [← hflatmap, hm, concat_replicate_zero]
      · obtain ⟨m, hm⟩ := fl (e ++ [Fin.last (k + 1)]) (children_getLast e)
        refine ⟨m + 1, ?_⟩
        rw [← hflatmap, hm, concat_replicate_last]
      · rw [← hflatmap]
        exact fc
      · intro pr hpr
        simp only [List.mem_cons] at hpr
        rcases hpr with rfl | hpr
        · rfl
        · rw [List.mem_flatMap] at hpr
          obtain ⟨i, _, hpr⟩ := hpr
          have hpk : RefinePack pred L (e ++ [i]) := by
            apply ih
            simp only [List.length_append, List.length_cons, List.length_nil]
            omega
          exact hpk.2.2.2.2 pr hpr
    · exact refine_pack_base pred L e hg

theorem idsFrom_get {k : ℕ} {w : List (Elem k)} (h : idsFrom 0 w = true) :
    ∀ i (hi : i < w.length), t8_element_child_id (w.get ⟨i, hi⟩) = i := by
  intro i hi
  have := (idsFrom_iff w 0).mp h i hi
  simpa using this

/-- The recursive coarsening loop preserves the adjacency chain of the
element array (with any fixed continuation `rest`), and every predicate call
it makes passes a complete family of `num_children` elements. -/
theorem coarsenRec_chain_calls {k : ℕ} (pred : ℕ → List (Elem k) → Int) (fl : ℕ) :
    ∀ (N : ℕ) (out rest : List (Elem k)), out.length ≤ N →
      List.Chain' Adj (out ++ rest) →
      List.Chain' Adj ((t8_forest_adapt_coarsen_recursive pred fl out).telements ++ rest) ∧
      (∀ pr ∈ (t8_forest_adapt_coarsen_recursive pred fl out).calls,
        pr.1 = k + 2 ∧ ∃ p, pr.2 = t8_element_children p) := by
  intro N
  induction N with
  | zero =>
    intro out rest hlen hch
    have hout : out = [] := by
      cases out with
      | nil => rfl
      | cons a l => simp at hlen
    subst hout
    rw [coarsen_recursive_eq]
    rw [if_neg (by simp)]
    exact ⟨hch, by simp⟩
  | succ N' ih =>
    intro out rest hlen hch
    rw [coarsen_recursive_eq]
    by_cases hc1 : fl + (k + 2) ≤ out.length ∧
        t8_element_child_id (out.getLastD []) = k + 1
    · rw [if_pos hc1]
      by_cases hc2 : idsFrom 0 (out.drop (out.length - (k + 2))) = true
      · rw [if_pos hc2]
        have hfamlen : (out.drop (out.length - (k + 2))).length = k + 2 := by
          rw [List.length_drop]
          omega
        have hsplit : out.take (out.length - (k + 2)) ++
            out.drop (out.length - (k + 2)) = out := List.take_append_drop _ _
        have hch2 : List.Chain' Adj (out.take (out.length - (k + 2)) ++
            (out.drop (out.length - (k + 2)) ++ rest)) := by
          rw [← List.append_assoc, hsplit]
          exact hch
        have hchfam : List.Chain' Adj (out.drop (out.length - (k + 2))) := by
          have h1 := (List.chain'_append.mp hch2).2.1
          exact (List.chain'_append.mp h1).1
        obtain ⟨p, hp⟩ := chain_ids_family _ hchfam hfamlen (idsFrom_get hc2)
        have hpar : t8_element_parent ((out.drop (out.length - (k + 2))).headD []) = p := by
          rw [hp]
          have : (t8_element_children p).headD [] = p ++ [(0 : Fin (k + 2))] := by
            rw [List.headD_eq_head?, children_head]
            rfl
          rw [this, t8_element_parent, List.dropLast_concat]
        by_cases hc3 : pred (k + 2) (out.drop (out.length - (k + 2))) < 0
        · rw [if_pos hc3]
          have hchp : List.Chain' Adj ((out.take (out.length - (k + 2)) ++
              [t8_element_parent ((out.drop (out.length - (k + 2))).headD [])]) ++ rest) := by
            rw [hpar]
            have hcp : List.Chain' Adj (out.take (out.length - (k + 2)) ++ p :: rest) := by
              apply chain_coarsen
              rw [← hp, List.append_assoc]
              exact hch2
            simpa using hcp
          have hlen' : (out.take (out.length - (k + 2)) ++
              [t8_element_parent ((out.drop (out.length - (k + 2))).headD [])]).length ≤ N' := by
            simp only [List.length_append, List.length_take, List.length_cons,
              List.length_nil]
            have := hc1.1
            omega
          obtain ⟨ihc, ihcalls⟩ := ih _ rest hlen' hchp
          refine ⟨ihc, ?_⟩
          intro pr hpr
          simp only [List.mem_cons] at hpr
          rcases hpr with rfl | hpr
          · exact ⟨rfl, p, hp⟩
          · exact ihcalls pr hpr
        · rw [if_neg hc3]
          refine ⟨hch, ?_⟩
          intro pr hpr
          simp only [List.mem_singleton] at hpr
          subst hpr
          exact ⟨rfl, p, hp⟩
      · rw [if_neg hc2]
        exact ⟨hch, by simp⟩
    · rw [if_neg hc1]
      exact ⟨hch, by simp⟩

/-- The loop invariant for SFC-order and predicate-call facts: the committed
elements followed by the still-unconsidered source elements form one
adjacency chain, and every predicate call so far passed either a singleton or
a complete family. -/
def AdaptInv {k : ℕ} (src : List (Elem k)) (s : TState k) : Prop :=
  List.Chain' Adj (s.telements ++ src.drop s.el_considered) ∧
  (∀ pr ∈ s.calls, (pr.1 = 1 ∨ pr.1 = k + 2) ∧
    (pr.1 = k + 2 → ∃ p, pr.2 = t8_element_children p))

theorem replicate_one_zero {k : ℕ} (x : Elem k) :
    x ++ [(0 : Fin (k + 2))] = x ++ List.replicate 1 0 := rfl

theorem replicate_one_last {k : ℕ} (x : Elem k) :
    x ++ [Fin.last (k + 1)] = x ++ List.replicate 1 (Fin.last (k + 1)) := rfl

/-- The refine branch's committed block (recursive form), with head/last/chain
facts, as a block below the consumed source element `x`. -/
theorem refine_branch_facts {k : ℕ} (pred : ℕ → List (Elem k) → Int) (L : ℕ)
    (x : Elem k) :
    List.Chain' Adj ((List.finRange (k + 2)).flatMap
      (fun i => (t8_forest_adapt_refine_recursive pred L (x ++ [i])).outs)) ∧
    (∃ m, ((List.finRange (k + 2)).flatMap
      (fun i => (t8_forest_adapt_refine_recursive pred L (x ++ [i])).outs)).head? =
        some (x ++ List.replicate m 0)) ∧
    (∃ m, ((List.finRange (k + 2)).flatMap
      (fun i => (t8_forest_adapt_refine_recursive pred L (x ++ [i])).outs)).getLast? =
        some (x ++ List.replicate m (Fin.last (k + 1)))) ∧
    ((List.finRange (k + 2)).flatMap
      (fun i => (t8_forest_adapt_refine_recursive pred L (x ++ [i])).outs)) ≠ [] ∧
    (∀ pr ∈ (List.finRange (k + 2)).flatMap
      (fun i => (t8_forest_adapt_refine_recursive pred L (x ++ [i])).calls), pr.1 = 1) := by
  have hpacks : ∀ y ∈ t8_element_children x, RefinePack pred L y := by
    intro y _
    exact refine_pack pred L (L - y.length) y (le_refl _)
  obtain ⟨fc, fh, fl, fne⟩ :=
    flat_block_facts (fun y => (t8_forest_adapt_refine_recursive pred L y).outs)
      (t8_element_children x)
      (fun y hy => ⟨(hpacks y hy).1, (hpacks y hy).2.1, (hpacks y hy).2.2.1,
        (hpacks y hy).2.2.2.1⟩)
      (chain_children x)
  have hflatmap : (t8_element_children x).flatMap
        (fun y => (t8_forest_adapt_refine_recursive pred L y).outs) =
      (List.finRange (k + 2)).flatMap
        (fun i => (t8_forest_adapt_refine_recursive pred L (x ++ [i])).outs) := by
    rw [t8_element_children, List.flatMap_map]
  have hcne : t8_element_children x ≠ [] := by
    intro hcon
    have := congrArg List.length hcon
    rw [children_length] at this
    simp at this
  refine ⟨?_, ?_, ?_, ?_, ?_⟩
  · rw [← hflatmap]; exact fc
  · obtain ⟨m, hm⟩ := fh (x ++ [(0 : Fin (k + 2))]) (children_head x)
    exact ⟨m + 1, by rw [← hflatmap, hm, concat_replicate_zero]⟩
  · obtain ⟨m, hm⟩ := fl (x ++ [Fin.last (k + 1)]) (children_getLast x)
    exact ⟨m + 1, by rw [← hflatmap, hm, concat_replicate_last]⟩
  · rw [← hflatmap]; exact fne hcne
  · intro pr hpr
    rw [List.mem_flatMap] at hpr
    obtain ⟨i, _, hpr⟩ := hpr
    exact (refine_pack pred L (L - (x ++ [i]).length) (x ++ [i]) (le_refl _)).2.2.2.2 pr hpr

/-- One step of the per-tree loop preserves `AdaptInv` whenever the predicate
respects the coarsening contract (it answers `< 0` only on complete
families). -/
theorem adapt_step_inv {k : ℕ} (pred : ℕ → List (Elem k) → Int) (rec : Bool)
    (L : ℕ) (src : List (Elem k))
    (hcontract : ∀ n w, pred n w < 0 → t8_element_is_family w = true)
    (s : TState k) (hlt : s.el_considered < src.length) (hinv : AdaptInv src s) :
    AdaptInv src (t8_forest_adapt_step pred rec L src s) := by
  obtain ⟨hch, hcalls⟩ := hinv
  have hx : src.getD s.el_considered [] = src.get ⟨s.el_considered, hlt⟩ := by
    simp [List.getD_eq_getElem?_getD, List.getElem?_eq_getElem hlt]
  have hrest : src.drop s.el_considered =
      src.get ⟨s.el_considered, hlt⟩ :: src.drop (s.el_considered + 1) := by
    rw [List.drop_eq_getElem_cons hlt]
    rfl
  by_cases hF : familyWindow src s.el_considered = true
  -- family-candidate window: the predicate is consulted with num_children
  -- elements, which the chain invariant shows to be a family
  · obtain ⟨hlen', hids⟩ : decide (s.el_considered + (k + 2) ≤ src.length) = true ∧
        idsFrom 0 ((src.drop s.el_considered).take (k + 2)) = true := by
      have h := hF
      rw [familyWindow, Bool.and_eq_true] at h
      exact h
    rw [decide_eq_true_eq] at hlen'
    have hwlen : ((src.drop s.el_considered).take (k + 2)).length = k + 2 := by
      rw [List.length_take, List.length_drop]
      omega
    have hdw : src.drop s.el_considered =
        (src.drop s.el_considered).take (k + 2) ++ src.drop (s.el_considered + (k + 2)) := by
      have h1 := List.take_append_drop (k + 2) (src.drop s.el_considered)
      rw [List.drop_drop] at h1
      exact h1.symm
    have hchw : List.Chain' Adj ((src.drop s.el_considered).take (k + 2)) := by
      have h1 : List.Chain' Adj (src.drop s.el_considered) := by
        have := (List.chain'_append.mp hch).2.1
        exact this
      rw [hdw] at h1
      exact (List.chain'_append.mp h1).1
    obtain ⟨p, hp⟩ := chain_ids_family _ hchw hwlen (idsFrom_get hids)
    have hxhead : src.get ⟨s.el_considered, hlt⟩ = p ++ [(0 : Fin (k + 2))] := by
      have h1 : (src.drop s.el_considered).head? = some (src.get ⟨s.el_considered, hlt⟩) := by
        rw [hrest]
        rfl
      have h2 : (src.drop s.el_considered).head? = some (p ++ [(0 : Fin (k + 2))]) := by
        rw [hdw, List.head?_append_of_ne_nil, hp, children_head]
        intro hcon
        have := congrArg List.length hcon
        rw [hwlen] at this
        simp at this
      rw [h1] at h2
      simpa using h2
    rcases lt_trichotomy (0 : Int) (pred (k + 2) ((src.drop s.el_considered).take (k + 2)))
      with hpos | hzero | hneg
    · -- refine
      have hcond : 0 < pred (if familyWindow src s.el_considered then k + 2 else 1)
          ((src.drop s.el_considered).take
            (if familyWindow src s.el_considered then k + 2 else 1)) := by
        rw [hF, if_pos rfl]
        exact hpos
      rw [t8_forest_adapt_step, if_pos hcond]
      cases rec with
      | true =>
        rw [if_pos rfl]
        constructor
        · show List.Chain' Adj ((s.telements ++ (List.finRange (k + 2)).flatMap
            (fun i => (t8_forest_adapt_refine_recursive pred L
              (src.getD s.el_considered [] ++ [i])).outs)) ++
            src.drop (s.el_considered + 1))
          obtain ⟨rc, rh, rl, rne, _⟩ := refine_branch_facts pred L (src.getD s.el_considered [])
          apply chain_splice (x := src.getD s.el_considered [])
          · rw [hx, ← hrest]
            exact hch
          · exact rc
          · exact rne
          · exact rh
          · exact rl
        · show ∀ pr ∈ (s.calls ++ [((if familyWindow src s.el_considered then k + 2 else 1 : ℕ),
            (src.drop s.el_considered).take
              (if familyWindow src s.el_considered then k + 2 else 1))]) ++
            (List.finRange (k + 2)).flatMap
              (fun i => (t8_forest_adapt_refine_recursive pred L
                (src.getD s.el_considered [] ++ [i])).calls), _
          intro pr hpr
          rw [List.mem_append, List.mem_append] at hpr
          rcases hpr with (hold | hnew) | hrec
          · exact hcalls pr hold
          · simp only [List.mem_singleton] at hnew
            subst hnew
            rw [hF, if_pos rfl]
            exact ⟨Or.inr rfl, fun _ => ⟨p, hp⟩⟩
          · obtain ⟨-, -, -, -, hc1⟩ := refine_branch_facts pred L (src.getD s.el_considered [])
            have := hc1 pr hrec
            rw [this]
            exact ⟨Or.inl rfl, by omega⟩
      | false =>
        rw [if_neg (by simp : ¬ (false = true))]
        constructor
        · show List.Chain' Adj ((s.telements ++
            t8_element_children (src.getD s.el_considered [])) ++
            src.drop (s.el_considered + 1))
          apply chain_splice (x := src.getD s.el_considered [])
          · rw [hx, ← hrest]
            exact hch
          · exact chain_children _
          · intro hcon
            have := congrArg List.length hcon
            rw [children_length] at this
            simp at this
          · exact ⟨1, by rw [children_head, replicate_one_zero]⟩
          · exact ⟨1, by rw [children_getLast, replicate_one_last]⟩
        · intro pr hpr
          rw [List.mem_append] at hpr
          rcases hpr with hold | hnew
          · exact hcalls pr hold
          · simp only [List.mem_singleton] at hnew
            subst hnew
            rw [hF, if_pos rfl]
            exact ⟨Or.inr rfl, fun _ => ⟨p, hp⟩⟩
    · -- keep
      have hnpos : ¬ (0 < pred (if familyWindow src s.el_considered then k + 2 else 1)
          ((src.drop s.el_considered).take
            (if familyWindow src s.el_considered then k + 2 else 1))) := by
        rw [hF, if_pos rfl]
        omega
      have hnneg : ¬ (pred (if familyWindow src s.el_considered then k + 2 else 1)
          ((src.drop s.el_considered).take
            (if familyWindow src s.el_considered then k + 2 else 1)) < 0) := by
        rw [hF, if_pos rfl]
        omega
      rw [t8_forest_adapt_step, if_neg hnpos, if_neg hnneg]
      have hnifK : (if familyWindow src s.el_considered then k + 2 else 1) = k + 2 := by
        rw [hF, if_pos rfl]
      rw [hnifK]
      have hchkeep : List.Chain' Adj ((s.telements ++ [src.getD s.el_considered []]) ++
          src.drop (s.el_considered + 1)) := by
        rw [List.append_assoc, hx]
        simp only [List.cons_append, List.nil_append, List.singleton_append]
        rw [← hrest]
        exact hch
      have hcallkeep : ∀ pr ∈ s.calls ++ [((k + 2 : ℕ),
          (src.drop s.el_considered).take (k + 2))],
          (pr.1 = 1 ∨ pr.1 = k + 2) ∧ (pr.1 = k + 2 → ∃ q, pr.2 = t8_element_children q) := by
        intro pr hpr
        rw [List.mem_append] at hpr
        rcases hpr with hold | hnew
        · exact hcalls pr hold
        · simp only [List.mem_singleton] at hnew
          subst hnew
          exact ⟨Or.inr rfl, fun _ => ⟨p, hp⟩⟩
      rw [AdaptInv]
      dsimp only
      split
      · -- recursive coarsening runs after the push
        constructor
        · obtain ⟨hc, -⟩ := coarsenRec_chain_calls pred s.el_coarsen
            (s.telements ++ [src.getD s.el_considered []]).length
            (s.telements ++ [src.getD s.el_considered []])
            (src.drop (s.el_considered + 1)) (le_refl _) hchkeep
          exact hc
        · intro pr hpr
          rw [List.mem_append] at hpr
          rcases hpr with hold | hrec2
          · exact hcallkeep pr hold
          · obtain ⟨-, hcc⟩ := coarsenRec_chain_calls pred s.el_coarsen
              (s.telements ++ [src.getD s.el_considered []]).length
              (s.telements ++ [src.getD s.el_considered []])
              (src.drop (s.el_considered + 1)) (le_refl _) hchkeep
            obtain ⟨h1, h2⟩ := hcc pr hrec2
            exact ⟨Or.inr h1, fun _ => h2⟩
      · exact ⟨hchkeep, hcallkeep⟩
    · -- coarsen
      have hnpos : ¬ (0 < pred (if familyWindow src s.el_considered then k + 2 else 1)
          ((src.drop s.el_considered).take
            (if familyWindow src s.el_considered then k + 2 else 1))) := by
        rw [hF, if_pos rfl]
        omega
      have hcond : pred (if familyWindow src s.el_considered then k + 2 else 1)
          ((src.drop s.el_considered).take
            (if familyWindow src s.el_considered then k + 2 else 1)) < 0 := by
        rw [hF, if_pos rfl]
        exact hneg
      rw [t8_forest_adapt_step, if_neg hnpos, if_pos hcond]
      have hnifK : (if familyWindow src s.el_considered then k + 2 else 1) = k + 2 := by
        rw [hF, if_pos rfl]
      rw [hnifK]
      have hpar : t8_element_parent (src.getD s.el_considered []) = p := by
        rw [hx, hxhead, t8_element_parent, List.dropLast_concat]
      have hchcoarse : List.Chain' Adj ((s.telements ++
          [t8_element_parent (src.getD s.el_considered [])]) ++
          src.drop (s.el_considered + (k + 2))) := by
        rw [hpar]
        have h1 : List.Chain' Adj (s.telements ++
            (t8_element_children p ++ src.drop (s.el_considered + (k + 2)))) := by
          rw [← hp, ← hdw]
          exact hch
        have h2 := chain_coarsen (by rw [List.append_assoc]; exact h1)
        simpa using h2
      have hcallco : ∀ pr ∈ s.calls ++ [((k + 2 : ℕ),
          (src.drop s.el_considered).take (k + 2))],
          (pr.1 = 1 ∨ pr.1 = k + 2) ∧ (pr.1 = k + 2 → ∃ q, pr.2 = t8_element_children q) := by
        intro pr hpr
        rw [List.mem_append] at hpr
        rcases hpr with hold | hnew
        · exact hcalls pr hold
        · simp only [List.mem_singleton] at hnew
          subst hnew
          exact ⟨Or.inr rfl, fun _ => ⟨p, hp⟩⟩
      rw [AdaptInv]
      dsimp only
      split
      · constructor
        · obtain ⟨hc, -⟩ := coarsenRec_chain_calls pred s.el_coarsen
            (s.telements ++ [t8_element_parent (src.getD s.el_considered [])]).length
            (s.telements ++ [t8_element_parent (src.getD s.el_considered [])])
            (src.drop (s.el_considered + (k + 2))) (le_refl _) hchcoarse
          exact hc
        · intro pr hpr
          rw [List.mem_append] at hpr
          rcases hpr with hold | hrec2
          · rw [List.mem_append] at hold
            rcases hold with h1 | h2
            · exact hcalls pr h1
            · simp only [List.mem_singleton] at h2
              subst h2
              exact ⟨Or.inr rfl, fun _ => ⟨p, hp⟩⟩
          · obtain ⟨-, hcc⟩ := coarsenRec_chain_calls pred s.el_coarsen
              (s.telements ++ [t8_element_parent (src.getD s.el_considered [])]).length
              (s.telements ++ [t8_element_parent (src.getD s.el_considered [])])
              (src.drop (s.el_considered + (k + 2))) (le_refl _) hchcoarse
            obtain ⟨h1, h2⟩ := hcc pr hrec2
            exact ⟨Or.inr h1, fun _ => h2⟩
      · exact ⟨hchcoarse, hcallco⟩
  -- singleton window
  · have hF' : familyWindow src s.el_considered = false := by
      cases hq : familyWindow src s.el_considered with
      | false => rfl
      | true => exact absurd hq hF
    rcases lt_trichotomy (0 : Int) (pred 1 ((src.drop s.el_considered).take 1))
      with hpos | hzero | hneg
    · have hcond : 0 < pred (if familyWindow src s.el_considered then k + 2 else 1)
          ((src.drop s.el_considered).take
            (if familyWindow src s.el_considered then k + 2 else 1)) := by
        rw [hF', if_neg (by simp)]
        exact hpos
      rw [t8_forest_adapt_step, if_pos hcond]
      cases rec with
      | true =>
        rw [if_pos rfl]
        constructor
        · show List.Chain' Adj ((s.telements ++ (List.finRange (k + 2)).flatMap
            (fun i => (t8_forest_adapt_refine_recursive pred L
              (src.getD s.el_considered [] ++ [i])).outs)) ++
            src.drop (s.el_considered + 1))
          obtain ⟨rc, rh, rl, rne, _⟩ := refine_branch_facts pred L (src.getD s.el_considered [])
          apply chain_splice (x := src.getD s.el_considered [])
          · rw [hx, ← hrest]
            exact hch
          · exact rc
          · exact rne
          · exact rh
          · exact rl
        · intro pr hpr
          have hpr2 : pr ∈ (s.calls ++ [((if familyWindow src s.el_considered then k + 2 else 1 : ℕ),
              (src.drop s.el_considered).take
                (if familyWindow src s.el_considered then k + 2 else 1))]) ++
              (List.finRange (k + 2)).flatMap
                (fun i => (t8_forest_adapt_refine_recursive pred L
                  (src.getD s.el_considered [] ++ [i])).calls) := hpr
          rw [List.mem_append, List.mem_append] at hpr2
          rcases hpr2 with (hold | hnew) | hrec
          · exact hcalls pr hold
          · simp only [List.mem_singleton] at hnew
            subst hnew
            rw [hF', if_neg (by simp)]
            exact ⟨Or.inl rfl, by omega⟩
          · obtain ⟨-, -, -, -, hc1⟩ := refine_branch_facts pred L (src.getD s.el_considered [])
            have := hc1 pr hrec
            rw [this]
            exact ⟨Or.inl rfl, by omega⟩
      | false =>
        rw [if_neg (by simp : ¬ (false = true))]
        constructor
        · show List.Chain' Adj ((s.telements ++
            t8_element_children (src.getD s.el_considered [])) ++
            src.drop (s.el_considered + 1))
          apply chain_splice (x := src.getD s.el_considered [])
          · rw [hx, ← hrest]
            exact hch
          · exact chain_children _
          · intro hcon
            have := congrArg List.length hcon
            rw [children_length] at this
            simp at this
          · exact ⟨1, by rw [children_head, replicate_one_zero]⟩
          · exact ⟨1, by rw [children_getLast, replicate_one_last]⟩
        · intro pr hpr
          have hpr2 : pr ∈ s.calls ++ [((if familyWindow src s.el_considered then k + 2 else 1 : ℕ),
              (src.drop s.el_considered).take
                (if familyWindow src s.el_considered then k + 2 else 1))] := hpr
          rw [List.mem_append] at hpr2
          rcases hpr2 with hold | hnew
          · exact hcalls pr hold
          · simp only [List.mem_singleton] at hnew
            subst hnew
            rw [hF', if_neg (by simp)]
            exact ⟨Or.inl rfl, by omega⟩
    · have hnpos : ¬ (0 < pred (if familyWindow src s.el_considered then k + 2 else 1)
          ((src.drop s.el_considered).take
            (if familyWindow src s.el_considered then k + 2 else 1))) := by
        rw [hF', if_neg (by simp)]
        omega
      have hnneg : ¬ (pred (if familyWindow src s.el_considered then k + 2 else 1)
          ((src.drop s.el_considered).take
            (if familyWindow src s.el_considered then k + 2 else 1)) < 0) := by
        rw [hF', if_neg (by simp)]
        omega
      rw [t8_forest_adapt_step, if_neg hnpos, if_neg hnneg]
      have hnif : (if familyWindow src s.el_considered then k + 2 else 1) = 1 := by
        rw [hF']
        simp
      rw [hnif]
      have hchkeep : List.Chain' Adj ((s.telements ++ [src.getD s.el_considered []]) ++
          src.drop (s.el_considered + 1)) := by
        rw [List.append_assoc, hx]
        simp only [List.cons_append, List.nil_append, List.singleton_append]
        rw [← hrest]
        exact hch
      have hcallkeep : ∀ pr ∈ s.calls ++ [((1 : ℕ),
          (src.drop s.el_considered).take 1)],
          (pr.1 = 1 ∨ pr.1 = k + 2) ∧ (pr.1 = k + 2 → ∃ q, pr.2 = t8_element_children q) := by
        intro pr hpr
        rw [List.mem_append] at hpr
        rcases hpr with hold | hnew
        · exact hcalls pr hold
        · simp only [List.mem_singleton] at hnew
          subst hnew
          exact ⟨Or.inl rfl, by omega⟩
      rw [AdaptInv]
      dsimp only
      split
      · constructor
        · obtain ⟨hc, -⟩ := coarsenRec_chain_calls pred s.el_coarsen
            (s.telements ++ [src.getD s.el_considered []]).length
            (s.telements ++ [src.getD s.el_considered []])
            (src.drop (s.el_considered + 1)) (le_refl _) hchkeep
          exact hc
        · intro pr hpr
          rw [List.mem_append] at hpr
          rcases hpr with hold | hrec2
          · exact hcallkeep pr hold
          · obtain ⟨-, hcc⟩ := coarsenRec_chain_calls pred s.el_coarsen
              (s.telements ++ [src.getD s.el_considered []]).length
              (s.telements ++ [src.getD s.el_considered []])
              (src.drop (s.el_considered + 1)) (le_refl _) hchkeep
            obtain ⟨h1, h2⟩ := hcc pr hrec2
            exact ⟨Or.inr h1, fun _ => h2⟩
      · exact ⟨hchkeep, hcallkeep⟩
    · -- a negative answer on a singleton window violates the coarsening
      -- contract: the window cannot be a family
      exfalso
      have := hcontract 1 ((src.drop s.el_considered).take 1) hneg
      rw [isFamily_iff] at this
      obtain ⟨q, hq⟩ := this
      have h1 : ((src.drop s.el_considered).take 1).length = 1 := by
        rw [List.length_take, List.length_drop]
        omega
      rw [hq, children_length] at h1
      omega

theorem length_flatMap_children {k : ℕ} :
    ∀ src : List (Elem k),
      (src.flatMap t8_element_children).length = (k + 2) * src.length := by
  intro src
  induction src with
  | nil => simp
  | cons a rest ih =>
    rw [List.flatMap_cons]
    simp only [List.length_append, children_length, ih, List.length_cons]
    ring

theorem drop_flatMap_children {k : ℕ} :
    ∀ (i : ℕ) (src : List (Elem k)),
      (src.flatMap t8_element_children).drop ((k + 2) * i) =
        (src.drop i).flatMap t8_element_children := by
  intro i
  induction i with
  | zero => intro src; simp
  | succ i' ih =>
    intro src
    cases src with
    | nil => simp
    | cons a rest =>
      rw [List.flatMap_cons]
      have hidx : (k + 2) * (i' + 1) = (t8_element_children a).length + (k + 2) * i' := by
        rw [children_length]
        ring
      rw [hidx, List.drop_append, ih, List.drop_succ_cons]

theorem idsFrom_children {k : ℕ} (a : Elem k) :
    idsFrom 0 (t8_element_children a) = true := by
  rw [idsFrom_iff]
  intro i hi
  rw [children_get, child_id_concat]
  simp

theorem window_flat {k : ℕ} (src : List (Elem k)) (i : ℕ) (hi : i < src.length) :
    ((src.flatMap t8_element_children).drop ((k + 2) * i)).take (k + 2) =
      t8_element_children (src.get ⟨i, hi⟩) := by
  rw [drop_flatMap_children]
  rw [List.drop_eq_getElem_cons hi, List.flatMap_cons]
  have : k + 2 = (t8_element_children src[i]).length := (children_length _).symm
  rw [this, List.take_left]
  rfl

theorem familyWindow_flat {k : ℕ} (src : List (Elem k)) (i : ℕ) (hi : i < src.length) :
    familyWindow (src.flatMap t8_element_children) ((k + 2) * i) = true := by
  rw [familyWindow, Bool.and_eq_true]
  constructor
  · rw [decide_eq_true_eq, length_flatMap_children]
    have : i + 1 ≤ src.length := hi
    calc (k + 2) * i + (k + 2) = (k + 2) * (i + 1) := by ring
    _ ≤ (k + 2) * src.length := Nat.mul_le_mul_left _ this
  · rw [window_flat src i hi]
    exact idsFrom_children _

theorem getD_flat {k : ℕ} (src : List (Elem k)) (i : ℕ) (hi : i < src.length) :
    (src.flatMap t8_element_children).getD ((k + 2) * i) [] =
      src.get ⟨i, hi⟩ ++ [(0 : Fin (k + 2))] := by
  have h1 : ((src.flatMap t8_element_children).drop ((k + 2) * i)).head? =
      some (src.get ⟨i, hi⟩ ++ [(0 : Fin (k + 2))]) := by
    rw [drop_flatMap_children, List.drop_eq_getElem_cons hi, List.flatMap_cons]
    rw [List.head?_append_of_ne_nil]
    · rw [children_head]
      rfl
    · intro h
      have := congrArg List.length h
      rw [children_length] at this
      simp at this
  rw [List.getD_eq_getElem?_getD, ← List.head?_drop, h1]
  rfl

/-- With an always-refine predicate and recursion off, the loop replaces每
source element by its children. -/
theorem adapt_loop_refine_all {k : ℕ} {pred : ℕ → List (Elem k) → Int}
    (h1 : ∀ n w, pred n w = 1) (L : ℕ) (src : List (Elem k)) :
    (t8_forest_adapt_loop pred false L src ⟨0, 0, [], [], []⟩).telements =
      src.flatMap t8_element_children := by
  have key := t8_loop_ind pred false L src
    (fun s => s.telements = (src.take s.el_considered).flatMap t8_element_children ∧
      s.el_considered ≤ src.length)
    (by
      intro s hlt hP
      obtain ⟨ht, hle⟩ := hP
      have hx : src.getD s.el_considered [] = src.get ⟨s.el_considered, hlt⟩ := by
        simp [List.getD_eq_getElem?_getD, List.getElem?_eq_getElem hlt]
      have htake : List.take (s.el_considered + 1) src =
          List.take s.el_considered src ++ [src.get ⟨s.el_considered, hlt⟩] := by
        rw [List.take_succ]
        simp [List.getElem?_eq_getElem hlt]
      rw [t8_forest_adapt_step]
      simp only [h1]
      rw [if_pos (by norm_num : (0 : Int) < 1)]
      rw [if_neg (by simp : ¬ (false = true))]
      refine ⟨?_, ?_⟩
      · show s.telements ++ t8_element_children (src.getD s.el_considered []) = _
        rw [ht, hx, htake, List.flatMap_append]
        simp
      · show s.el_considered + 1 ≤ src.length
        omega)
    ⟨0, 0, [], [], []⟩ (by simp)
  have hfin := t8_loop_final pred false L src ⟨0, 0, [], [], []⟩
  obtain ⟨h1', h2⟩ := key
  have heq : (t8_forest_adapt_loop pred false L src ⟨0, 0, [], [], []⟩).el_considered
      = src.length := by omega
  rw [h1', heq, List.take_length]

/-- With a coarsen-every-family predicate and recursion off, the loop folds
each family of children back to its parent. -/
theorem adapt_loop_coarsen_all {k : ℕ} {pred : ℕ → List (Elem k) → Int}
    (h2K : ∀ w, pred (k + 2) w = -1) (L : ℕ) (src : List (Elem k)) :
    (t8_forest_adapt_loop pred false L (src.flatMap t8_element_children)
      ⟨0, 0, [], [], []⟩).telements = src := by
  have key := t8_loop_ind pred false L (src.flatMap t8_element_children)
    (fun s => ∃ i, i ≤ src.length ∧ s.el_considered = (k + 2) * i ∧
      s.telements = src.take i)
    (by
      intro s hlt hP
      obtain ⟨i, hile, hc, ht⟩ := hP
      have hi : i < src.length := by
        by_contra hge
        have : i = src.length := by omega
        subst this
        rw [hc, length_flatMap_children] at hlt
        omega
      have hfam := familyWindow_flat src i hi
      have hxval := getD_flat src i hi
      have hwin := window_flat src i hi
      have hn1 : ¬ ((0 : Int) < -1) := by norm_num
      have hn2 : (-1 : Int) < 0 := by norm_num
      have hpar : t8_element_parent (src.get ⟨i, hi⟩ ++ [(0 : Fin (k + 2))]) =
          src.get ⟨i, hi⟩ := by
        rw [t8_element_parent, List.dropLast_concat]
      have htake : List.take (i + 1) src =
          List.take i src ++ [src.get ⟨i, hi⟩] := by
        rw [List.take_succ]
        simp [List.getElem?_eq_getElem hi]
      rw [t8_forest_adapt_step]
      refine ⟨i + 1, by omega, ?_⟩
      simp only [hc, hfam, if_true, hwin, h2K, hxval, hpar, hn1, hn2, if_false,
        Bool.false_and, ht, htake]
      constructor
      · show (k + 2) * i + (k + 2) = (k + 2) * (i + 1)
        ring
      · rfl)
    ⟨0, 0, [], [], []⟩ ⟨0, by omega, by simp, by simp⟩
  have hfin := t8_loop_final pred false L (src.flatMap t8_element_children)
    ⟨0, 0, [], [], []⟩
  obtain ⟨i, hile, hc, ht⟩ := key
  rw [hc, length_flatMap_children] at hfin
  have hmul : (k + 2) * src.length ≤ (k + 2) * i := by omega
  have hle2 : src.length ≤ i := Nat.le_of_mul_le_mul_left hmul (by omega)
  have : i = src.length := by omega
  subst this
  rw [ht, List.take_length]

/-- C8: running adapt with an always-`+1` predicate (recursion off) and then
with a coarsen-every-family-candidate predicate (recursion off) reproduces
the original tree sequence. -/
theorem C8_refine_then_coarsen {k : ℕ} (pred1 pred2 : ℕ → List (Elem k) → Int)
    (h1 : ∀ n w, pred1 n w = 1) (h2K : ∀ w, pred2 (k + 2) w = -1) (L : ℕ)
    (src : List (Elem k)) (hne : src ≠ []) :
    ∃ s1 s2 : TState k,
      t8_forest_adapt_tree pred1 false L src = some s1 ∧
      t8_forest_adapt_tree pred2 false L s1.telements = some s2 ∧
      s2.telements = src := by
  obtain ⟨e, t, rfl⟩ : ∃ e t, src = e :: t := by
    cases src with
    | nil => exact absurd rfl hne
    | cons e t => exact ⟨e, t, rfl⟩
  refine ⟨t8_forest_adapt_loop pred1 false L (e :: t) ⟨0, 0, [], [], []⟩, ?_⟩
  have hs1 : (t8_forest_adapt_loop pred1 false L (e :: t) ⟨0, 0, [], [], []⟩).telements
      = (e :: t).flatMap t8_element_children := adapt_loop_refine_all h1 L (e :: t)
  have hne2 : (e :: t).flatMap t8_element_children =
      t8_element_children e ++ t.flatMap t8_element_children := by
    rw [List.flatMap_cons]
  have hchildcons : ∃ c0 crest, (e :: t).flatMap t8_element_children = c0 :: crest := by
    rw [hne2]
    rw [t8_element_children, List.finRange_succ]
    exact ⟨_, _, rfl⟩
  obtain ⟨c0, crest, hcc⟩ := hchildcons
  refine ⟨t8_forest_adapt_loop pred2 false L (c0 :: crest) ⟨0, 0, [], [], []⟩, ?_, ?_, ?_⟩
  · rfl
  · rw [hs1, hcc]
    rfl
  · have := adapt_loop_coarsen_all h2K L (e :: t)
    rw [hcc] at this
    exact this

theorem C8_refine_then_coarsen_witness :
    ∃ s1 s2 : TState 0,
      t8_forest_adapt_tree (fun _ _ => (1 : Int)) false 3 [[0], [1]] = some s1 ∧
      t8_forest_adapt_tree (fun n _ => if n = 2 then (-1 : Int) else 0) false 3
        s1.telements = some s2 ∧
      s2.telements = [[0], [1]] :=
  C8_refine_then_coarsen (k := 0) (fun _ _ => (1 : Int))
    (fun n _ => if n = 2 then (-1 : Int) else 0)
    (fun _ _ => rfl) (fun w => rfl) 3 [[0], [1]] (by decide)

theorem C5_coarsen_branch_witness :
    familyWindow ([[0], [1]] : List (Elem 0)) 0 = true ∧
    (fun n (_ : List (Elem 0)) => if n = 2 then (-1 : Int) else 0) 2
        (((([[0], [1]] : List (Elem 0))).drop 0).take 2) < 0 ∧
    (t8_forest_adapt_step (fun n _ => if n = 2 then (-1 : Int) else 0) false 3
        ([[0], [1]] : List (Elem 0)) ⟨0, 0, [], [], []⟩).telements = [[]] :=
  ⟨by decide, by decide,
    by
      have h := (C5_coarsen_branch (fun n _ => if n = 2 then (-1 : Int) else 0) 3
        ([[0], [1]] : List (Elem 0)) ⟨0, 0, [], [], []⟩ (by decide) (by decide)).1
      rw [h]
      decide⟩

/-- The LIFO while loop of `t8_forest_adapt_refine_recursive` (lines 120-142)
as a fuel-indexed stack machine: the stack models the `sc_list_t` candidate
list (the children of an expanded candidate are prepended in reverse, so they
are popped child `0` first), and `acc` holds the elements committed to
`telements` so far.  The machine answers `none` when the fuel runs out with a
non-empty stack, and `some acc` exactly when the while loop exits, which
happens only once the candidate stack is empty. -/
def refineStack {k : ℕ} (pred : ℕ → List (Elem k) → Int) :
    ℕ → List (Elem k) → List (Elem k) → Option (List (Elem k))
  | _, [], acc => some acc
  | 0, _ :: _, _ => none
  | fuel + 1, e :: rest, acc =>
    if 0 < pred 1 [e] then
      refineStack pred fuel (t8_element_children e ++ rest) acc
    else
      refineStack pred fuel rest (acc ++ [e])

/-- The number of pops the stack machine spends on one candidate and the
subtree it is refined into (indexed by the same fuel as `refineRecAux`). -/
def refineCost {k : ℕ} (pred : ℕ → List (Elem k) → Int) (L : ℕ) :
    ℕ → Elem k → ℕ
  | 0, _ => 1
  | fuel + 1, e =>
    if 0 < pred 1 [e] ∧ e.length < L then
      1 + ((List.finRange (k + 2)).map
        (fun i => refineCost pred L fuel (e ++ [i]))).sum
    else 1

/-- With enough fuel, the stack machine consumes one candidate's whole
refinement subtree and commits exactly the elements the recursive form
computes, in order, provided the predicate refuses to refine elements at the
maximum level. -/
theorem refineStack_run {k : ℕ} (pred : ℕ → List (Elem k) → Int) (L : ℕ)
    (hmax : ∀ e : Elem k, L ≤ e.length → pred 1 [e] ≤ 0) :
    ∀ (N : ℕ) (e : Elem k), L - e.length ≤ N →
      ∀ (rest acc : List (Elem k)) (g : ℕ),
        refineStack pred (refineCost pred L N e + g) (e :: rest) acc =
        refineStack pred g rest (acc ++ (refineRecAux pred L N e).outs) := by
  intro N
  induction N with
  | zero =>
    intro e hN rest acc g
    have hp : ¬ 0 < pred 1 [e] := by
      have := hmax e (by omega)
      omega
    rw [refineCost, refineRecAux]
    have h1 : (1 : ℕ) + g = g + 1 := by omega
    rw [h1, refineStack, if_neg hp]
  | succ N ih =>
    intro e hN rest acc g
    by_cases hp : 0 < pred 1 [e]
    · have hlen : e.length < L := by
        by_contra hcon
        have := hmax e (by omega)
        omega
      have hcond : 0 < pred 1 [e] ∧ e.length < L := ⟨hp, hlen⟩
      have inner : ∀ (l : List (Elem k)), (∀ x ∈ l, L - x.length ≤ N) →
          ∀ (rest acc : List (Elem k)) (g : ℕ),
            refineStack pred ((l.map (refineCost pred L N)).sum + g) (l ++ rest) acc =
            refineStack pred g rest
              (acc ++ l.flatMap (fun x => (refineRecAux pred L N x).outs)) := by
        intro l
        induction l with
        | nil =>
          intro _ rest acc g
          simp
        | cons x l' ihl =>
          intro hx rest acc g
          have h1 := ih x (hx x (by simp)) (l' ++ rest) acc
            ((l'.map (refineCost pred L N)).sum + g)
          have h2 := ihl (fun y hy => hx y (by simp [hy])) rest
            (acc ++ (refineRecAux pred L N x).outs) g
          rw [List.map_cons, List.sum_cons, Nat.add_assoc, List.cons_append, h1, h2,
            List.flatMap_cons, List.append_assoc]
      rw [refineCost, if_pos hcond, refineRecAux, if_pos hcond]
      have hfuel : 1 + ((List.finRange (k + 2)).map
            (fun i => refineCost pred L N (e ++ [i]))).sum + g =
          (((List.finRange (k + 2)).map
            (fun i => refineCost pred L N (e ++ [i]))).sum + g) + 1 := by
        omega
      rw [hfuel, refineStack, if_pos hp]
      have hch : ∀ x ∈ t8_element_children e, L - x.length ≤ N := by
        intro x hx
        have := mem_children_length hx
        omega
      have hinner := inner (t8_element_children e) hch rest acc g
      rw [t8_element_children, List.map_map, List.flatMap_map] at hinner
      rw [t8_element_children]
      exact hinner
    · rw [refineCost, if_neg (fun hc => hp hc.1), refineRecAux,
        if_neg (fun hc => hp hc.1)]
      have h1 : (1 : ℕ) + g = g + 1 := by omega
      rw [h1, refineStack, if_neg hp]

/-- C6: for a predicate that answers `≤ 0` on every element at the per-class
maximum refinement level `L`, the LIFO loop of
`t8_forest_adapt_refine_recursive` terminates — some fuel makes the stack
machine halt with its candidate stack drained — committing exactly the
elements of the recursive form, and those committed elements contain no
duplicates. -/
theorem C6_refine_stack_terminates {k : ℕ} (pred : ℕ → List (Elem k) → Int)
    (L : ℕ) (hmax : ∀ e : Elem k, L ≤ e.length → pred 1 [e] ≤ 0) (e : Elem k) :
    ∃ fuel : ℕ,
      refineStack pred fuel [e] [] =
        some (t8_forest_adapt_refine_recursive pred L e).outs ∧
      (t8_forest_adapt_refine_recursive pred L e).outs.Nodup := by
  refine ⟨refineCost pred L (L - e.length) e + 0, ?_, ?_⟩
  · have h := refineStack_run pred L hmax (L - e.length) e (le_refl _) [] [] 0
    rw [h, refineStack, List.nil_append]
    rfl
  · have hpack := refine_pack pred L (L - e.length) e (le_refl _)
    have hch : List.Chain' Adj (t8_forest_adapt_refine_recursive pred L e).outs :=
      hpack.2.2.2.1
    have hchs := List.Chain'.imp (fun a b h => Adj_sfcLt h) hch
    have : IsTrans (Elem k) (fun a b => sfcLt a b = true) :=
      ⟨fun _ _ _ hab hbc => sfcLt_trans hab hbc⟩
    have hpw := List.chain'_iff_pairwise.mp hchs
    exact hpw.imp (fun h => sfcLt_ne h)

theorem C6_refine_stack_terminates_witness :
    ∃ fuel : ℕ,
      refineStack ((fun _ w => if w.headI.length = 0 then (1 : Int) else 0) :
          ℕ → List (Elem 0) → Int) fuel [([] : Elem 0)] [] =
        some (t8_forest_adapt_refine_recursive
          ((fun _ w => if w.headI.length = 0 then (1 : Int) else 0) :
            ℕ → List (Elem 0) → Int) 1 ([] : Elem 0)).outs ∧
      (t8_forest_adapt_refine_recursive
        ((fun _ w => if w.headI.length = 0 then (1 : Int) else 0) :
          ℕ → List (Elem 0) → Int) 1 ([] : Elem 0)).outs.Nodup :=
  C6_refine_stack_terminates
    ((fun _ w => if w.headI.length = 0 then (1 : Int) else 0) :
      ℕ → List (Elem 0) → Int) 1
    (fun e he => by
      show (if e.length = 0 then (1 : Int) else 0) ≤ 0
      have hne : ¬ e.length = 0 := by omega
      rw [if_neg hne])
    ([] : Elem 0)

theorem getD_left {α : Type} (A C : List α) (n : ℕ) (d : α) (h : n < A.length) :
    (A ++ C).getD n d = A.getD n d := by
  simp [List.getD_eq_getElem?_getD, List.getElem?_append_left h]

theorem getD_take {α : Type} (l : List α) (m i : ℕ) (d : α) (h : i < m) :
    (l.take m).getD i d = l.getD i d := by
  simp [List.getD_eq_getElem?_getD, List.getElem?_take, h]

theorem getD_last {α : Type} (l : List α) (d : α) :
    l.getD (l.length - 1) d = l.getLastD d := by
  rw [List.getLastD_eq_getLast?, List.getLast?_eq_getElem?]
  simp [List.getD_eq_getElem?_getD]

theorem getLastD_right {α : Type} (A C : List α) (d : α) (h : C ≠ []) :
    (A ++ C).getLastD d = C.getLastD d := by
  rw [List.getLastD_eq_getLast?, List.getLastD_eq_getLast?,
    List.getLast?_append_of_ne_nil A h]

/-- The recursive-coarsening barrier: the loop never removes elements at or
before a position holding a last child (child id `num_children - 1`).  A
candidate window that crosses that position would need the barrier element's
child id to read as its position inside the window, which is at most
`num_children - 2`; a window ending exactly at the barrier would need the
array to end there, but the array always extends past the barrier. -/
theorem coarsenRec_barrier {k : ℕ} (pred : ℕ → List (Elem k) → Int) (fl : ℕ) :
    ∀ (fuel : ℕ) (tel : List (Elem k)) (i : ℕ),
      i + 1 < tel.length →
      t8_element_child_id (tel.getD i []) = k + 1 →
      (coarsenRecAux pred fl fuel tel).telements.take (i + 1) = tel.take (i + 1) ∧
      i + 1 < (coarsenRecAux pred fl fuel tel).telements.length := by
  intro fuel
  induction fuel with
  | zero =>
    intro tel i hi hid
    rw [coarsenRecAux]
    exact ⟨rfl, hi⟩
  | succ fuel ih =>
    intro tel i hi hid
    rw [coarsenRecAux]
    by_cases hc1 : fl + (k + 2) ≤ tel.length ∧
        t8_element_child_id (tel.getLastD []) = k + 1
    · rw [if_pos hc1]
      by_cases hc2 : idsFrom 0 (tel.drop (tel.length - (k + 2))) = true
      · rw [if_pos hc2]
        by_cases hc3 : pred (k + 2) (tel.drop (tel.length - (k + 2))) < 0
        · rw [if_pos hc3]
          by_cases hcase : i + 1 ≤ tel.length - (k + 2)
          · have hlen' : (tel.take (tel.length - (k + 2)) ++
                [t8_element_parent ((tel.drop (tel.length - (k + 2))).headD [])]).length =
                tel.length - (k + 2) + 1 := by
              simp only [List.length_append, List.length_take, List.length_cons,
                List.length_nil]
              omega
            have hi' : i + 1 < (tel.take (tel.length - (k + 2)) ++
                [t8_element_parent ((tel.drop (tel.length - (k + 2))).headD [])]).length := by
              rw [hlen']
              omega
            have hgd : (tel.take (tel.length - (k + 2)) ++
                [t8_element_parent ((tel.drop (tel.length - (k + 2))).headD [])]).getD i [] =
                tel.getD i [] := by
              rw [getD_left]
              · exact getD_take tel _ i [] (by omega)
              · simp only [List.length_take]
                omega
            obtain ⟨ht, hl⟩ := ih (tel.take (tel.length - (k + 2)) ++
              [t8_element_parent ((tel.drop (tel.length - (k + 2))).headD [])]) i hi'
              (by rw [hgd]; exact hid)
            constructor
            · show (coarsenRecAux pred fl fuel (tel.take (tel.length - (k + 2)) ++
                [t8_element_parent ((tel.drop (tel.length - (k + 2))).headD
                  [])])).telements.take (i + 1) = tel.take (i + 1)
              rw [ht, List.take_append_of_le_length
                (by simp only [List.length_take]; omega), List.take_take,
                min_eq_left hcase]
            · show i + 1 < (coarsenRecAux pred fl fuel (tel.take (tel.length - (k + 2)) ++
                [t8_element_parent ((tel.drop (tel.length - (k + 2))).headD
                  [])])).telements.length
              exact hl
          · exfalso
            have hKle : k + 2 ≤ tel.length := by omega
            have hwlen : (tel.drop (tel.length - (k + 2))).length = k + 2 := by
              rw [List.length_drop]
              omega
            have hilt : i < tel.length := by omega
            have hjlt : i - (tel.length - (k + 2)) <
                (tel.drop (tel.length - (k + 2))).length := by
              rw [hwlen]
              omega
            have hidj := idsFrom_get hc2 (i - (tel.length - (k + 2))) hjlt
            have hb : tel.length - (k + 2) + (i - (tel.length - (k + 2))) < tel.length := by
              omega
            have hget : (tel.drop (tel.length - (k + 2))).get
                ⟨i - (tel.length - (k + 2)), hjlt⟩ =
                tel.get ⟨tel.length - (k + 2) + (i - (tel.length - (k + 2))), hb⟩ := by
              simp [List.getElem_drop]
            have hix : (⟨tel.length - (k + 2) + (i - (tel.length - (k + 2))), hb⟩ :
                Fin tel.length) = ⟨i, hilt⟩ := by
              apply Fin.ext
              simp only
              omega
            rw [hget, hix] at hidj
            have hgdi : tel.getD i [] = tel.get ⟨i, hilt⟩ := by
              simp [List.getD_eq_getElem?_getD, List.getElem?_eq_getElem hilt]
            rw [hgdi] at hid
            omega
        · rw [if_neg hc3]
          exact ⟨rfl, hi⟩
      · rw [if_neg hc2]
        exact ⟨rfl, hi⟩
    · rw [if_neg hc1]
      exact ⟨rfl, hi⟩

/-- One step of the per-tree loop never disturbs an initial segment of the
element array that ends in a last child: the appending branches leave it
untouched, and the recursive coarsening loop cannot cross the last-child
barrier. -/
theorem adapt_step_block {k : ℕ} (pred : ℕ → List (Elem k) → Int) (rec : Bool)
    (L : ℕ) (src : List (Elem k)) (B : List (Elem k)) (hBne : B ≠ [])
    (hbar : t8_element_child_id (B.getLastD []) = k + 1)
    (s : TState k)
    (h1 : s.telements.take B.length = B) (h2 : B.length ≤ s.telements.length) :
    (t8_forest_adapt_step pred rec L src s).telements.take B.length = B ∧
    B.length ≤ (t8_forest_adapt_step pred rec L src s).telements.length := by
  have hm1 : 1 ≤ B.length := by
    cases B with
    | nil => exact absurd rfl hBne
    | cons b B' => simp
  have happ : ∀ C : List (Elem k), (s.telements ++ C).take B.length = B ∧
      B.length ≤ (s.telements ++ C).length := by
    intro C
    constructor
    · rw [List.take_append_of_le_length h2]
      exact h1
    · rw [List.length_append]
      omega
  have hco : ∀ z : Elem k,
      (t8_forest_adapt_coarsen_recursive pred s.el_coarsen
        (s.telements ++ [z])).telements.take B.length = B ∧
      B.length ≤ (t8_forest_adapt_coarsen_recursive pred s.el_coarsen
        (s.telements ++ [z])).telements.length := by
    intro z
    have hlt : B.length - 1 < s.telements.length := by omega
    have hgd : (s.telements ++ [z]).getD (B.length - 1) [] = B.getLastD [] := by
      rw [getD_left _ _ _ _ hlt]
      have hgt : s.telements.getD (B.length - 1) [] =
          (s.telements.take B.length).getD (B.length - 1) [] :=
        (getD_take s.telements B.length (B.length - 1) [] (by omega)).symm
      rw [hgt, h1]
      have hBl : B.length - 1 = B.length - 1 := rfl
      rw [getD_last]
    have hi : (B.length - 1) + 1 < (s.telements ++ [z]).length := by
      rw [List.length_append]
      simp only [List.length_cons, List.length_nil]
      omega
    have hb := coarsenRec_barrier pred s.el_coarsen (s.telements ++ [z]).length
      (s.telements ++ [z]) (B.length - 1) hi (by rw [hgd]; exact hbar)
    rw [t8_forest_adapt_coarsen_recursive]
    have hm : B.length - 1 + 1 = B.length := by omega
    rw [hm] at hb
    obtain ⟨hbt, hbl⟩ := hb
    constructor
    · rw [hbt, List.take_append_of_le_length h2]
      exact h1
    · omega
  rw [t8_forest_adapt_step]
  dsimp only
  repeat' split
  all_goals first
    | exact happ _
    | exact hco _

/-- The last element committed by the recursive refine branch descends from
the refined element along last children, so its child id is
`num_children - 1`. -/
theorem refine_block_last_id {k : ℕ} (pred : ℕ → List (Elem k) → Int) (L : ℕ)
    (x : Elem k) :
    t8_element_child_id (((List.finRange (k + 2)).flatMap
      (fun i => (t8_forest_adapt_refine_recursive pred L (x ++ [i])).outs)).getLastD [])
      = k + 1 := by
  have hpacks : ∀ y ∈ t8_element_children x, RefinePack pred L y := by
    intro y _
    exact refine_pack pred L (L - y.length) y (le_refl _)
  obtain ⟨-, -, fl, -⟩ :=
    flat_block_facts (fun y => (t8_forest_adapt_refine_recursive pred L y).outs)
      (t8_element_children x)
      (fun y hy => ⟨(hpacks y hy).1, (hpacks y hy).2.1, (hpacks y hy).2.2.1,
        (hpacks y hy).2.2.2.1⟩)
      (chain_children x)
  obtain ⟨m, hm⟩ := fl (x ++ [Fin.last (k + 1)]) (children_getLast x)
  have hflatmap : (t8_element_children x).flatMap
        (fun y => (t8_forest_adapt_refine_recursive pred L y).outs) =
      (List.finRange (k + 2)).flatMap
        (fun i => (t8_forest_adapt_refine_recursive pred L (x ++ [i])).outs) := by
    rw [t8_element_children, List.flatMap_map]
  rw [← hflatmap, List.getLastD_eq_getLast?, hm, Option.getD_some]
  cases m with
  | zero =>
    simp only [List.replicate_zero, List.append_nil]
    rw [child_id_concat]
    simp
  | succ t =>
    rw [List.append_assoc, List.singleton_append, child_id_chain]
    simp

/-- C4: in a recursive adapt call, the elements inserted by a firing of the
refine branch — in particular every family produced by that refinement —
survive unchanged as an initial segment of the element array to the end of
the per-tree loop: the recursive coarsening loop never replaces any of them
by a parent. -/
theorem C4_refined_never_coarsened {k : ℕ} (pred : ℕ → List (Elem k) → Int)
    (L : ℕ) (src : List (Elem k)) (s : TState k)
    (hrefine : 0 < pred (if familyWindow src s.el_considered then k + 2 else 1)
      ((src.drop s.el_considered).take
        (if familyWindow src s.el_considered then k + 2 else 1))) :
    (t8_forest_adapt_loop pred true L src
        (t8_forest_adapt_step pred true L src s)).telements.take
      (t8_forest_adapt_step pred true L src s).telements.length =
    (t8_forest_adapt_step pred true L src s).telements := by
  have hstel : (t8_forest_adapt_step pred true L src s).telements =
      s.telements ++ (List.finRange (k + 2)).flatMap
        (fun i => (t8_forest_adapt_refine_recursive pred L
          (src.getD s.el_considered [] ++ [i])).outs) := by
    rw [t8_forest_adapt_step]
    dsimp only
    rw [if_pos hrefine, if_pos rfl]
  obtain ⟨-, -, -, hne, -⟩ := refine_branch_facts pred L (src.getD s.el_considered [])
  have hBne : (t8_forest_adapt_step pred true L src s).telements ≠ [] := by
    rw [hstel]
    intro hcon
    rw [List.append_eq_nil] at hcon
    exact hne hcon.2
  have hbar : t8_element_child_id
      ((t8_forest_adapt_step pred true L src s).telements.getLastD []) = k + 1 := by
    rw [hstel, getLastD_right _ _ _ hne]
    exact refine_block_last_id pred L (src.getD s.el_considered [])
  have hfinal := t8_loop_ind pred true L src
    (fun st =>
      st.telements.take (t8_forest_adapt_step pred true L src s).telements.length =
        (t8_forest_adapt_step pred true L src s).telements ∧
      (t8_forest_adapt_step pred true L src s).telements.length ≤ st.telements.length)
    (fun st _ hP => adapt_step_block pred true L src _ hBne hbar st hP.1 hP.2)
    (t8_forest_adapt_step pred true L src s)
    ⟨List.take_length _, le_refl _⟩
  exact hfinal.1

theorem C4_refined_never_coarsened_witness :
    (t8_forest_adapt_loop (fun _ w => if w = [[]] then (1 : Int) else 0) true 1
        ([[]] : List (Elem 0))
        (t8_forest_adapt_step (fun _ w => if w = [[]] then (1 : Int) else 0) true 1
          ([[]] : List (Elem 0)) ⟨0, 0, [], [], []⟩)).telements.take
      (t8_forest_adapt_step (fun _ w => if w = [[]] then (1 : Int) else 0) true 1
        ([[]] : List (Elem 0)) ⟨0, 0, [], [], []⟩).telements.length =
    (t8_forest_adapt_step (fun _ w => if w = [[]] then (1 : Int) else 0) true 1
      ([[]] : List (Elem 0)) ⟨0, 0, [], [], []⟩).telements :=
  C4_refined_never_coarsened (fun _ w => if w = [[]] then (1 : Int) else 0) 1
    ([[]] : List (Elem 0)) ⟨0, 0, [], [], []⟩ (by decide)

/-- Modelled from the spec: a refinement tree over one root element.  A leaf
stands for the element itself; a node stands for an element replaced by its
`k + 2` children's subtrees.  The leaves of such a tree, read depth-first in
child order, are exactly the element sequences a committed tree can hold
(section 3: leaves in SFC order, tiling the root). -/
inductive TreeShape (k : ℕ) where
  | leaf : TreeShape k
  | node : (Fin (k + 2) → TreeShape k) → TreeShape k

/-- Modelled from the spec: the leaf sequence of a refinement tree below the
element `e`, in depth-first child order (the SFC order). -/
def shapeLeaves {k : ℕ} : TreeShape k → Elem k → List (Elem k)
  | .leaf, e => [e]
  | .node f, e => (List.finRange (k + 2)).flatMap (fun i => shapeLeaves (f i) (e ++ [i]))

/-- Modelled from the spec: a committed source tree holds the leaves of some
refinement tree of the root element, in SFC order. -/
def committedTree {k : ℕ} (src : List (Elem k)) : Prop :=
  ∃ t : TreeShape k, src = shapeLeaves t []

/-- The leaf sequence of any refinement tree below `e` is a non-empty
`Adj`-chain anchored between the first-child chain and the last-child chain
below `e`. -/
theorem shape_facts {k : ℕ} (t : TreeShape k) :
    ∀ e : Elem k,
      shapeLeaves t e ≠ [] ∧
      (∃ m, (shapeLeaves t e).head? = some (e ++ List.replicate m 0)) ∧
      (∃ m, (shapeLeaves t e).getLast? =
        some (e ++ List.replicate m (Fin.last (k + 1)))) ∧
      List.Chain' Adj (shapeLeaves t e) := by
  induction t with
  | leaf =>
    intro e
    refine ⟨by simp [shapeLeaves], ⟨0, by simp [shapeLeaves]⟩,
      ⟨0, by simp [shapeLeaves]⟩, by simp [shapeLeaves]⟩
  | node f ih =>
    intro e
    have hrw : shapeLeaves (TreeShape.node f) e =
        (t8_element_children e).flatMap (fun c => shapeLeaves (f (c.getLastD 0)) c) := by
      rw [shapeLeaves, t8_element_children, List.flatMap_map]
      apply congrArg
      funext i
      rw [List.getLastD_concat]
    have hpack : ∀ x ∈ t8_element_children e,
        (fun c => shapeLeaves (f (c.getLastD 0)) c) x ≠ [] ∧
        (∃ m, ((fun c => shapeLeaves (f (c.getLastD 0)) c) x).head? =
          some (x ++ List.replicate m 0)) ∧
        (∃ m, ((fun c => shapeLeaves (f (c.getLastD 0)) c) x).getLast? =
          some (x ++ List.replicate m (Fin.last (k + 1)))) ∧
        List.Chain' Adj ((fun c => shapeLeaves (f (c.getLastD 0)) c) x) := by
      intro x hx
      rw [t8_element_children] at hx
      obtain ⟨i, -, rfl⟩ := List.mem_map.mp hx
      simp only [List.getLastD_concat]
      exact ih i (e ++ [i])
    obtain ⟨fc, fh, fl, fne⟩ :=
      flat_block_facts (fun c => shapeLeaves (f (c.getLastD 0)) c)
        (t8_element_children e) hpack (chain_children e)
    have hcne : t8_element_children e ≠ [] := by
      intro hcon
      have := congrArg List.length hcon
      rw [children_length] at this
      simp at this
    refine ⟨?_, ?_, ?_, ?_⟩
    · rw [hrw]; exact fne hcne
    · obtain ⟨m, hm⟩ := fh (e ++ [(0 : Fin (k + 2))]) (children_head e)
      exact ⟨m + 1, by rw [hrw, hm, concat_replicate_zero]⟩
    · obtain ⟨m, hm⟩ := fl (e ++ [Fin.last (k + 1)]) (children_getLast e)
      exact ⟨m + 1, by rw [hrw, hm, concat_replicate_last]⟩
    · rw [hrw]; exact fc

/-- Running the per-tree loop on a committed tree under the coarsening
contract yields a final state satisfying `AdaptInv`, with the considered
cursor past the end of the source. -/
theorem adapt_tree_inv {k : ℕ} (pred : ℕ → List (Elem k) → Int) (rec : Bool)
    (L : ℕ) (src : List (Elem k)) (t : TreeShape k)
    (hsrc : src = shapeLeaves t [])
    (hcontract : ∀ n w, pred n w < 0 → t8_element_is_family w = true)
    (s : TState k) (hs : t8_forest_adapt_tree pred rec L src = some s) :
    AdaptInv src s ∧ src.length ≤ s.el_considered := by
  have hne : src ≠ [] := by
    rw [hsrc]; exact (shape_facts t []).1
  have hchain : List.Chain' Adj src := by
    rw [hsrc]; exact (shape_facts t []).2.2.2
  obtain ⟨e, tl, hcons⟩ : ∃ e tl, src = e :: tl := by
    cases src with
    | nil => exact absurd rfl hne
    | cons e tl => exact ⟨e, tl, rfl⟩
  rw [hcons] at hs
  rw [t8_forest_adapt_tree] at hs
  have hs' : t8_forest_adapt_loop pred rec L (e :: tl) ⟨0, 0, [], [], []⟩ = s :=
    Option.some_inj.mp hs
  constructor
  · rw [hcons, ← hs']
    refine t8_loop_ind pred rec L (e :: tl) (AdaptInv (e :: tl)) ?_ _ ?_
    · intro s' hlt hin
      exact adapt_step_inv pred rec L (e :: tl) hcontract s' hlt hin
    · constructor
      · rw [hcons] at hchain
        simpa using hchain
      · intro pr hpr
        simp at hpr
  · have hfin := t8_loop_final pred rec L (e :: tl) ⟨0, 0, [], [], []⟩
    rw [hs'] at hfin
    rw [hcons]
    omega

/-- C1: for every committed source tree, every adapt predicate obeying the
coarsening contract (negative answers only on complete families), and both
settings of the recursive flag, the output element sequence of the per-tree
loop of `t8_forest_adapt` is strictly sorted by the SFC order that
`t8_element_compare` computes, with no duplicate elements. -/
theorem C1_adapt_sfc_sorted {k : ℕ} (pred : ℕ → List (Elem k) → Int)
    (rec : Bool) (L : ℕ) (src : List (Elem k)) (hsrc : committedTree src)
    (hcontract : ∀ n w, pred n w < 0 → t8_element_is_family w = true)
    (s : TState k) (hs : t8_forest_adapt_tree pred rec L src = some s) :
    List.Pairwise (fun a b => sfcLt a b = true) s.telements ∧
    s.telements.Nodup := by
  obtain ⟨t, hsrc⟩ := hsrc
  obtain ⟨⟨hch, -⟩, hfin⟩ := adapt_tree_inv pred rec L src t hsrc hcontract s hs
  have hdrop : src.drop s.el_considered = [] := List.drop_eq_nil_of_le hfin
  rw [hdrop, List.append_nil] at hch
  have hchs : List.Chain' (fun a b => sfcLt a b = true) s.telements :=
    List.Chain'.imp (fun a b h => Adj_sfcLt h) hch
  have : IsTrans (Elem k) (fun a b => sfcLt a b = true) :=
    ⟨fun _ _ _ hab hbc => sfcLt_trans hab hbc⟩
  have hpw : List.Pairwise (fun a b => sfcLt a b = true) s.telements :=
    List.chain'_iff_pairwise.mp hchs
  exact ⟨hpw, hpw.imp (fun h => sfcLt_ne h)⟩

theorem C1_adapt_sfc_sorted_witness :
    List.Pairwise (fun a b : Elem 0 => sfcLt a b = true)
      ([[0], [1]] : List (Elem 0)) ∧
    ([[0], [1]] : List (Elem 0)).Nodup :=
  C1_adapt_sfc_sorted (k := 0) (fun _ _ => 0) false 1 [[0], [1]]
    ⟨TreeShape.node (fun _ => TreeShape.leaf), by decide⟩
    (fun n w h => by simp at h)
    ⟨2, 0, [[0], [1]], [], [(2, [[0], [1]]), (1, [[1]])]⟩ (by decide)

/-- C7: every adapt-predicate invocation made by the per-tree loop on a
committed tree passes either a singleton window (`num_elements = 1`) or a
window of `num_children` consecutive elements that are the children
`0 .. num_children - 1` of a common parent in order (a family). -/
theorem C7_predicate_windows {k : ℕ} (pred : ℕ → List (Elem k) → Int)
    (rec : Bool) (L : ℕ) (src : List (Elem k)) (hsrc : committedTree src)
    (hcontract : ∀ n w, pred n w < 0 → t8_element_is_family w = true)
    (s : TState k) (hs : t8_forest_adapt_tree pred rec L src = some s) :
    ∀ pr ∈ s.calls,
      (pr.1 = 1 ∨ pr.1 = t8_element_num_children k pr.2.headI) ∧
      (pr.1 = t8_element_num_children k pr.2.headI →
        t8_element_is_family pr.2 = true) := by
  obtain ⟨t, hsrc⟩ := hsrc
  obtain ⟨⟨-, hcalls⟩, -⟩ := adapt_tree_inv pred rec L src t hsrc hcontract s hs
  intro pr hpr
  obtain ⟨h1, h2⟩ := hcalls pr hpr
  refine ⟨h1, ?_⟩
  intro hn
  obtain ⟨p, hp⟩ := h2 hn
  rw [hp]
  exact isFamily_children p

theorem C7_predicate_windows_witness :
    ((2 : ℕ) = 1 ∨
      2 = t8_element_num_children 0 ([[0], [1]] : List (Elem 0)).headI) ∧
    (2 = t8_element_num_children 0 ([[0], [1]] : List (Elem 0)).headI →
      t8_element_is_family ([[0], [1]] : List (Elem 0)) = true) :=
  C7_predicate_windows (k := 0) (fun _ _ => 0) false 1 [[0], [1]]
    ⟨TreeShape.node (fun _ => TreeShape.leaf), by decide⟩
    (fun n w h => by simp at h)
    ⟨2, 0, [[0], [1]], [], [(2, [[0], [1]]), (1, [[1]])]⟩ (by decide)
    (2, [[0], [1]]) (by decide)

end T8
